import Mathlib

/-!
# Verification of the card store and upload ingestion pipeline of `app_v1.py`

This file is a shallow embedding of the persistent card store, the upload
ingestion pipeline and the identifier sanitizer of `src/app_v1.py`, together
with proofs of the specified properties.

Strings are modelled as `List Char`; byte streams as `List Nat`; the log file
as `Option (List Char)` (`none` = the file does not exist).  The Python `json`
module (`json.dumps` with `ensure_ascii=False` / `json.loads`), `str.strip`,
`str.lower`, `str.split`, and werkzeug's `secure_filename` are external
library collaborators: they are modelled faithfully from their documented
behaviour on the inputs this program feeds them (ASCII-exact; JSON numbers are
modelled as integers, floats do not occur in any card record).
-/

/-- ASCII decimal digit test, as used by the JSON number grammar. -/
def isDigitCh (c : Char) : Bool := decide ('0' ≤ c ∧ c ≤ '9')

/-- Whitespace skipped by the JSON scanner (`[ \t\n\r]`, as in Python's
`json` module). -/
def jsonWs (c : Char) : Bool := decide (c = ' ' ∨ c = '\t' ∨ c = '\n' ∨ c = '\r')

/-- Whitespace stripped by Python's `str.strip()` (ASCII part). -/
def pyWs (c : Char) : Bool :=
  decide (c = ' ' ∨ c = '\t' ∨ c = '\n' ∨ c = '\r' ∨ c = Char.ofNat 11 ∨ c = Char.ofNat 12)

/-- Model of Python `str.strip()`: drop whitespace from both ends. -/
def pstrip (cs : List Char) : List Char :=
  ((cs.dropWhile pyWs).reverse.dropWhile pyWs).reverse

/-- Model of Python `str.lower()` on ASCII characters. -/
def pyLower (c : Char) : Char :=
  if 'A' ≤ c ∧ c ≤ 'Z' then Char.ofNat (c.toNat + 32) else c

/-- The decimal digit character for a value below ten. -/
def digitChar (n : Nat) : Char := Char.ofNat (48 + n)

/-- Fuel-indexed decimal digit expansion (most significant first). -/
def natDigitsGo : Nat → Nat → List Char
  | 0, _ => []
  | fuel + 1, n =>
    if n < 10 then [digitChar n]
    else natDigitsGo fuel (n / 10) ++ [digitChar (n % 10)]

/-- Decimal digit string of a natural number, as Python's `str`/`format`
produce it. -/
def natDigits (n : Nat) : List Char := natDigitsGo (n + 1) n

/-- Read a decimal digit string back into a number. -/
def decodeDigits (ds : List Char) : Nat :=
  ds.foldl (fun a c => a * 10 + (c.toNat - 48)) 0

/-- Lowercase hexadecimal digit character, as Python's `format(n, "x")`. -/
def hexDigit (n : Nat) : Char :=
  if n < 10 then Char.ofNat (48 + n) else Char.ofNat (87 + n)

/-- Numeric value of a hexadecimal digit character. -/
def hexVal (c : Char) : Option Nat :=
  if '0' ≤ c ∧ c ≤ '9' then some (c.toNat - 48)
  else if 'a' ≤ c ∧ c ≤ 'f' then some (c.toNat - 87)
  else if 'A' ≤ c ∧ c ≤ 'F' then some (c.toNat - 55)
  else none

/-! ## JSON values

JSON values as produced by `json.loads` and consumed by `json.dumps`.
Arrays and objects are mutually inductive with values so that all
recursions stay structural (and hence compute by `rfl`). -/

mutual

inductive Json : Type where
  | null : Json
  | bool : Bool → Json
  | num : Int → Json
  | str : List Char → Json
  | arr : JArr → Json
  | obj : JObj → Json

inductive JArr : Type where
  | nil : JArr
  | cons : Json → JArr → JArr

inductive JObj : Type where
  | nil : JObj
  | cons : List Char → Json → JObj → JObj

end

/-! ## Serializer: model of `json.dumps(card, ensure_ascii=False)`

Default separators `", "` and `": "`; `"` and `\` and control characters
are escaped (`\n \r \t \b \f`, otherwise `\u00xx`); everything else is
emitted verbatim. -/

/-- Escape one character of a JSON string literal. -/
def escChar (c : Char) : List Char :=
  if c = '"' then ['\\', '"']
  else if c = '\\' then ['\\', '\\']
  else if c = '\n' then ['\\', 'n']
  else if c = '\r' then ['\\', 'r']
  else if c = '\t' then ['\\', 't']
  else if c = Char.ofNat 8 then ['\\', 'b']
  else if c = Char.ofNat 12 then ['\\', 'f']
  else if c.toNat < 32 then ['\\', 'u', '0', '0', hexDigit (c.toNat / 16), hexDigit (c.toNat % 16)]
  else [c]

/-- Escape every character of a JSON string body. -/
def escList : List Char → List Char
  | [] => []
  | c :: s => escChar c ++ escList s

/-- Serialize a JSON string literal (with the surrounding quotes). -/
def serStr (s : List Char) : List Char := '"' :: escList s ++ ['"']

/-- Serialize an integer in decimal. -/
def serInt (n : Int) : List Char :=
  if n < 0 then '-' :: natDigits n.natAbs else natDigits n.natAbs

mutual

/-- Serialize a JSON value, as `json.dumps(v, ensure_ascii=False)`. -/
def serVal : Json → List Char
  | .null => 'n' :: ['u', 'l', 'l']
  | .bool true => 't' :: ['r', 'u', 'e']
  | .bool false => 'f' :: ['a', 'l', 's', 'e']
  | .num n => serInt n
  | .str s => serStr s
  | .arr .nil => ['[', ']']
  | .arr (.cons x xs) => '[' :: (serVal x ++ serArrTail xs ++ [']'])
  | .obj .nil => ['{', '}']
  | .obj (.cons k v ms) => '{' :: (serStr k ++ ':' :: ' ' :: serVal v ++ serObjTail ms ++ ['}'])

/-- Remaining array elements, each preceded by `", "`. -/
def serArrTail : JArr → List Char
  | .nil => []
  | .cons x xs => ',' :: ' ' :: serVal x ++ serArrTail xs

/-- Remaining object members, each preceded by `", "`. -/
def serObjTail : JObj → List Char
  | .nil => []
  | .cons k v ms => ',' :: ' ' :: serStr k ++ ':' :: ' ' :: serVal v ++ serObjTail ms

end

/-! ## Parser: model of `json.loads`

A fuel-indexed recursive-descent scanner mirroring Python's `json.scanner`:
whitespace is skipped around tokens, strings reject unescaped control
characters, numbers follow `-?(0|[1-9][0-9]*)` (floats are not modelled —
no card record contains one), and trailing garbage makes the whole parse
fail.  The fuel decreases at every mutual call, and `jsize` below bounds the
fuel any serialized value needs. -/

/-- Skip JSON whitespace. -/
def skipWs (cs : List Char) : List Char := cs.dropWhile jsonWs

/-- Consume an expected literal tail (e.g. `ull` after `n`). -/
def stripLit : List Char → List Char → Option (List Char)
  | [], s => some s
  | _ :: _, [] => none
  | p :: ps, c :: s => if c = p then stripLit ps s else none

/-- Decode of a short escape character (`\n`, `\t`, ...). -/
def escDecode (e : Char) : Option Char :=
  if e = '"' then some '"'
  else if e = '\\' then some '\\'
  else if e = '/' then some '/'
  else if e = 'n' then some '\n'
  else if e = 't' then some '\t'
  else if e = 'r' then some '\r'
  else if e = 'b' then some (Char.ofNat 8)
  else if e = 'f' then some (Char.ofNat 12)
  else none

/-- Parse a JSON string body after the opening quote, returning the decoded
characters and the input after the closing quote. -/
def parseStr : List Char → Option (List Char × List Char)
  | [] => none
  | c :: rest =>
    if c = '"' then some ([], rest)
    else if c = '\\' then
      match rest with
      | [] => none
      | e :: rest2 =>
        if e = 'u' then
          match rest2 with
          | a :: b :: x :: y :: rest3 =>
            match hexVal a, hexVal b, hexVal x, hexVal y with
            | some va, some vb, some vx, some vy =>
              match parseStr rest3 with
              | some (s, r) => some (Char.ofNat (((va * 16 + vb) * 16 + vx) * 16 + vy) :: s, r)
              | none => none
            | _, _, _, _ => none
          | _ => none
        else
          match escDecode e with
          | some d =>
            match parseStr rest2 with
            | some (s, r) => some (d :: s, r)
            | none => none
          | none => none
    else if c.toNat < 32 then none
    else
      match parseStr rest with
      | some (s, r) => some (c :: s, r)
      | none => none

/-- Parse an unsigned JSON integer (`0|[1-9][0-9]*`). -/
def parseUNum (cs : List Char) : Option (Nat × List Char) :=
  match cs.takeWhile isDigitCh with
  | [] => none
  | d :: ds =>
    if d = '0' ∧ ds ≠ [] then none
    else some (decodeDigits (d :: ds), cs.dropWhile isDigitCh)

mutual

/-- Parse one JSON value (after skipping leading whitespace). -/
def parseVal : Nat → List Char → Option (Json × List Char)
  | 0, _ => none
  | f + 1, cs =>
    match skipWs cs with
    | [] => none
    | c :: rest =>
      if isDigitCh c then
        match parseUNum (c :: rest) with
        | some (m, r) => some (.num (Int.ofNat m), r)
        | none => none
      else if c = '-' then
        match parseUNum rest with
        | some (m, r) => some (.num (-(Int.ofNat m)), r)
        | none => none
      else if c = '"' then
        match parseStr rest with
        | some (s, r) => some (.str s, r)
        | none => none
      else if c = '[' then
        match skipWs rest with
        | [] => none
        | d :: r =>
          if d = ']' then some (.arr .nil, r)
          else
            match parseElems f (d :: r) with
            | some (vs, r2) => some (.arr vs, r2)
            | none => none
      else if c = '{' then
        match skipWs rest with
        | [] => none
        | d :: r =>
          if d = '}' then some (.obj .nil, r)
          else
            match parseMembers f (d :: r) with
            | some (ms, r2) => some (.obj ms, r2)
            | none => none
      else if c = 'n' then
        match stripLit ['u', 'l', 'l'] rest with
        | some r => some (.null, r)
        | none => none
      else if c = 't' then
        match stripLit ['r', 'u', 'e'] rest with
        | some r => some (.bool true, r)
        | none => none
      else if c = 'f' then
        match stripLit ['a', 'l', 's', 'e'] rest with
        | some r => some (.bool false, r)
        | none => none
      else none

/-- Parse the elements of a non-empty JSON array, up to and including the
closing bracket. -/
def parseElems : Nat → List Char → Option (JArr × List Char)
  | 0, _ => none
  | f + 1, cs =>
    match parseVal f cs with
    | none => none
    | some (v, r) =>
      match skipWs r with
      | [] => none
      | d :: r2 =>
        if d = ',' then
          match parseElems f r2 with
          | some (vs, r3) => some (.cons v vs, r3)
          | none => none
        else if d = ']' then some (.cons v .nil, r2)
        else none

/-- Parse the members of a non-empty JSON object, up to and including the
closing brace. -/
def parseMembers : Nat → List Char → Option (JObj × List Char)
  | 0, _ => none
  | f + 1, cs =>
    match skipWs cs with
    | [] => none
    | d :: r =>
      if d = '"' then
        match parseStr r with
        | none => none
        | some (k, r1) =>
          match skipWs r1 with
          | [] => none
          | e :: r2 =>
            if e = ':' then
              match parseVal f r2 with
              | none => none
              | some (v, r3) =>
                match skipWs r3 with
                | [] => none
                | g :: r4 =>
                  if g = ',' then
                    match parseMembers f r4 with
                    | some (ms, r5) => some (.cons k v ms, r5)
                    | none => none
                  else if g = '}' then some (.cons k v .nil, r4)
                  else none
            else none
      else none

end

/-- Model of `json.loads`: parse one value and require only whitespace to
follow.  The fuel `cs.length + 1` is sufficient for every serialized value
(see `jsize_le_serLen`). -/
def json_loads (cs : List Char) : Option Json :=
  match parseVal (cs.length + 1) cs with
  | some (v, r) => if skipWs r = [] then some v else none
  | none => none

/-- Head of input that starts with no decimal digit. -/
def noDigitHead : List Char → Bool
  | [] => true
  | c :: _ => !isDigitCh c

mutual

/-- Fuel needed by `parseVal` on the serialization of a value. -/
def jsize : Json → Nat
  | .null => 1
  | .bool _ => 1
  | .num _ => 1
  | .str _ => 1
  | .arr a => 1 + jsizeA a
  | .obj o => 1 + jsizeO o

/-- Fuel needed by `parseElems` on serialized array elements. -/
def jsizeA : JArr → Nat
  | .nil => 0
  | .cons v vs => 1 + jsize v + jsizeA vs

/-- Fuel needed by `parseMembers` on serialized object members. -/
def jsizeO : JObj → Nat
  | .nil => 0
  | .cons _ v ms => 1 + jsize v + jsizeO ms

end

/-! ## The card log store (`load_cards` / `append_card`, lines 186-213)

The log file content is `Option (List Char)`: `none` models a file that does
not exist (`os.path.exists` is false).  Iterating a Python text file yields
lines split at `\n`, with `\r\n` and lone `\r` translated to `\n` by
universal-newline decoding; `splitLines` mirrors that. -/

/-- Split file content into lines (universal newlines, terminators dropped).
As with Python's line iteration followed by `strip()`, a trailing newline
contributes one final empty piece, which the blank-line check then skips. -/
def splitLines : List Char → List (List Char)
  | [] => [[]]
  | ['\r'] => [[], []]
  | '\r' :: '\n' :: cs => [] :: splitLines cs
  | '\r' :: c :: cs => [] :: splitLines (c :: cs)
  | '\n' :: cs => [] :: splitLines cs
  | c :: cs =>
    match splitLines cs with
    | [] => [[]]
    | l :: ls => (c :: l) :: ls

/-- What `load_cards` does to one line of the log: strip it, skip it if
blank, parse it as JSON, and skip it if parsing fails (lines 199-205). -/
def processLine (l : List Char) : Option Json :=
  let s := pstrip l
  if s = [] then none else json_loads s

/-- The accumulator loop of `load_cards` over the lines of the file. -/
def loadLoop : List (List Char) → List Json → List Json
  | [], acc => acc
  | l :: ls, acc =>
    let s := pstrip l
    if s = [] then loadLoop ls acc
    else
      match json_loads s with
      | some v => loadLoop ls (acc ++ [v])
      | none => loadLoop ls acc

/-- Model of `load_cards` (lines 190-206): an absent file yields `[]`;
otherwise every line is stripped, blank lines are skipped, and each
remaining line is parsed, unparsable lines being skipped. -/
def load_cards : Option (List Char) → List Json
  | none => []
  | some cs => loadLoop (splitLines cs) []

/-- Model of `append_card` (lines 208-213): append the serialized record
and a newline to the file, creating it when absent (`open(path, "a")`). -/
def append_card (st : Option (List Char)) (card : Json) : Option (List Char) :=
  some (st.getD [] ++ serVal card ++ ['\n'])

/-- Path of the log file, `os.path.join(DATA_DIR, "submissions.csv")`
(line 186-188; the content is JSON lines, the name is historical). -/
def cards_csv_path (data_dir : List Char) : List Char :=
  data_dir ++ ("/submissions.csv").data

/-- Lock file path constructed by `load_cards` (line 195):
`FileLock(path + ".lock")`. -/
def load_lock_path (path : List Char) : List Char := path ++ (".lock").data

/-- Lock file path constructed by `append_card` (line 210):
`FileLock(path + ".lock")`. -/
def append_lock_path (path : List Char) : List Char := path ++ (".lock").data

/-- A sequence of `append_card` operations.  Because `append_card` and
`load_cards` hold the same exclusive interprocess lock for the whole
open-append-flush-close sequence, any concurrent execution of appends is
observationally one serial order of whole-record appends; a serial order is
modelled as a list. -/
def appendAll (cards : List Json) (st : Option (List Char)) : Option (List Char) :=
  cards.foldl append_card st

/-- The log states this core itself produces: absent, empty, or ending with
a newline (every append writes a trailing `\n`). -/
def goodLog : Option (List Char) → Bool
  | none => true
  | some [] => true
  | some cs => decide (cs.getLast? = some '\n')

/-- A line with no line-break character in it. -/
def noBreakLine (l : List Char) : Bool :=
  l.all fun c => decide (c ≠ '\n' ∧ c ≠ '\r')

/-- File content made of the given lines, each terminated by a newline —
the shape `append_card` maintains. -/
def joinNL : List (List Char) → List Char
  | [] => []
  | l :: ls => l ++ '\n' :: joinNL ls

/-- The non-empty lines of a log file, in file order. -/
def nonEmptyLines (st : Option (List Char)) : List (List Char) :=
  (splitLines (st.getD [])).filter fun l => decide (l ≠ [])

/-! ## Identifier sanitizer (`sanitize_id`, lines 158-164) -/

/-- The hexadecimal alphabet string of line 162. -/
def HEX_CHARS : List Char := ("0123456789abcdef").data

/-- Model of `sanitize_id`: empty input is rejected; the input is
lowercased; it is accepted only if every character is lowercase hex and the
length lies in `[8, 32]`; otherwise the empty string is returned. -/
def sanitize_id (value : List Char) : List Char :=
  if value = [] then []
  else
    let v := value.map pyLower
    if v.all (fun c => decide (c ∈ HEX_CHARS)) = true ∧ 8 ≤ v.length ∧ v.length ≤ 32
    then v else []

/-! ## Upload ingestion (`allowed_file`, `unique_filename`, `secure_filename`
and the loop of `admin_new`, lines 113-132 and 169-184) -/

/-- The extension allow-list of lines 21-29. -/
def ALLOWED_EXTENSIONS : List (List Char) :=
  [("jpg").data, ("jpeg").data, ("png").data, ("gif").data, ("webp").data,
   ("mp4").data, ("webm").data, ("mov").data,
   ("pdf").data, ("txt").data, ("csv").data, ("zip").data, ("7z").data, ("rar").data,
   ("doc").data, ("docx").data, ("xls").data, ("xlsx").data, ("ppt").data, ("pptx").data]

/-- Split a filename at its last dot: `splitLastDot cs = some (b, e)` when
`cs = b ++ '.' :: e` with no dot in `e`; `none` when `cs` has no dot.
This is `str.rpartition(".")`. -/
def splitLastDot : List Char → Option (List Char × List Char)
  | [] => none
  | c :: cs =>
    match splitLastDot cs with
    | some (b, e) => some (c :: b, e)
    | none => if c = '.' then some ([], cs) else none

/-- The substring after the last dot — `filename.rsplit(".", 1)[-1]`
(the whole string when there is no dot). -/
def afterLastDot (cs : List Char) : List Char :=
  match splitLastDot cs with
  | none => cs
  | some (_, e) => e

/-- Model of `allowed_file` (lines 169-173): require a dot, then test the
lowercased last extension against the allow-list. -/
def allowed_file (filename : List Char) : Bool :=
  if '.' ∈ filename then
    decide ((afterLastDot filename).map pyLower ∈ ALLOWED_EXTENSIONS)
  else false

/-- Characters kept by werkzeug's `secure_filename` filter
(`[A-Za-z0-9_.-]`). -/
def isFnameChar (c : Char) : Bool :=
  decide (('A' ≤ c ∧ c ≤ 'Z') ∨ ('a' ≤ c ∧ c ≤ 'z') ∨ ('0' ≤ c ∧ c ≤ '9') ∨
    c = '_' ∨ c = '.' ∨ c = '-')

/-- Model of Python `str.split()` with no argument: split on whitespace
runs, dropping empty pieces.  The first argument accumulates the current
word in reverse. -/
def pysplitGo : List Char → List Char → List (List Char)
  | [], cur => if cur = [] then [] else [cur.reverse]
  | c :: cs, cur =>
    if pyWs c then
      if cur = [] then pysplitGo cs [] else cur.reverse :: pysplitGo cs []
    else pysplitGo cs (c :: cur)

/-- Join words with single underscores — `"_".join(words)`. -/
def joinUnderscore : List (List Char) → List Char
  | [] => []
  | [w] => w
  | w :: ws => w ++ '_' :: joinUnderscore ws

/-- Strip leading and trailing `.` and `_` — `str.strip("._")`. -/
def stripDotUnderscore (cs : List Char) : List Char :=
  (((cs.dropWhile fun c => decide (c = '.' ∨ c = '_')).reverse.dropWhile
    fun c => decide (c = '.' ∨ c = '_')).reverse)

/-- Model of werkzeug's `secure_filename` on a POSIX platform, from its
documented behaviour: reduce to ASCII (the NFKD transliteration step is
modelled by dropping non-ASCII characters), replace the path separator `/`
with spaces, collapse whitespace runs to single underscores, drop every
character outside `[A-Za-z0-9_.-]`, and strip `.` and `_` from both ends.
Total and deterministic; yields `[]` for names such as `".."` or `"///"`. -/
def secure_filename (s : List Char) : List Char :=
  let ascii := s.filter fun c => decide (c.toNat < 128)
  let repl := ascii.map fun c => if c = '/' then ' ' else c
  stripDotUnderscore ((joinUnderscore (pysplitGo repl [])).filter isFnameChar)

/-- Candidate collision name `f"{base}_{i}.{ext}"`, or `f"{base}_{i}"` when
the extension is empty (line 182). -/
def mkCand (base ext : List Char) (i : Nat) : List Char :=
  if ext = [] then base ++ '_' :: natDigits i
  else base ++ '_' :: natDigits i ++ '.' :: ext

/-- The `while os.path.exists(...)` loop of `unique_filename` (lines
179-184), with the existing directory entries passed as a list of names.
The fuel `names.length + 1` given below always suffices: the candidates are
pairwise distinct, so some candidate among the first `names.length + 1`
is unused (`unique_filename_not_mem`). -/
def ufLoop (names : List (List Char)) (base ext : List Char) :
    Nat → Nat → List Char → List Char
  | 0, _, cand => cand
  | fuel + 1, i, cand =>
    if cand ∈ names then ufLoop names base ext fuel (i + 1) (mkCand base ext i)
    else cand

/-- Model of `unique_filename` (lines 175-184): starting from the sanitized
name, append `_2`, `_3`, ... before the extension until the name is not
present in the directory. -/
def unique_filename (names : List (List Char)) (filename : List Char) : List Char :=
  let be := match splitLastDot filename with
    | none => (filename, ([] : List Char))
    | some (b, e) => (b, e)
  ufLoop names be.1 be.2 (names.length + 1) 2 filename

/-! ## Card records and the ingestion loop of `admin_new` -/

/-- One successfully stored attachment (the dict of lines 128-132). -/
structure StoredFile where
  name : List Char
  url : List Char
  ext : List Char
deriving DecidableEq

/-- A published card (the dict of lines 134-140). -/
structure Card where
  id : List Char
  created_at : List Char
  title : List Char
  description : List Char
  files : List StoredFile
deriving DecidableEq

/-- The URL produced by `url_for("uploaded_file", ...)` for a stored file:
`/uploads/<card_id>/<filename>`. -/
def urlFor (card_id name : List Char) : List Char :=
  ("/uploads/").data ++ card_id ++ '/' :: name

/-- JSON value of a stored-file record, key order as written (line 128). -/
def StoredFile.toJson (f : StoredFile) : Json :=
  .obj (.cons (("name").data) (.str f.name)
    (.cons (("url").data) (.str f.url)
      (.cons (("ext").data) (.str f.ext) .nil)))

/-- The `files` array of a card record. -/
def storedToJArr : List StoredFile → JArr
  | [] => .nil
  | f :: fs => .cons f.toJson (storedToJArr fs)

/-- JSON value of a card record, key order as written (lines 134-140). -/
def Card.toJson (c : Card) : Json :=
  .obj (.cons (("id").data) (.str c.id)
    (.cons (("created_at").data) (.str c.created_at)
      (.cons (("title").data) (.str c.title)
        (.cons (("description").data) (.str c.description)
          (.cons (("files").data) (.arr (storedToJArr c.files)) .nil)))))

/-- One raw upload entry as the ingestion loop sees it.  `filename` is
`none` for a missing client filename; werkzeug's `FileStorage.__bool__` is
`bool(self.filename)`, so the guard `if not f or not f.filename` of line
114 skips exactly the entries whose filename is `none` or empty. -/
structure RawFile where
  filename : Option (List Char)
  content : List Nat
deriving DecidableEq

/-- The per-file loop of `admin_new` (lines 113-132).  `folder` is the
per-card directory listing (name and stored bytes, in creation order) that
`os.path.exists` consults — it includes files written earlier in the same
batch; `saved` accumulates the `saved_files` list. -/
def ingestLoop (card_id : List Char) :
    List RawFile → List (List Char × List Nat) → List StoredFile →
    List (List Char × List Nat) × List StoredFile
  | [], folder, saved => (folder, saved)
  | f :: fs, folder, saved =>
    match f.filename with
    | none => ingestLoop card_id fs folder saved
    | some orig =>
      if orig = [] then ingestLoop card_id fs folder saved
      else
        let fname := secure_filename orig
        if fname = [] then ingestLoop card_id fs folder saved
        else if allowed_file fname = false then ingestLoop card_id fs folder saved
        else
          let resolved := unique_filename (folder.map Prod.fst) fname
          ingestLoop card_id fs (folder ++ [(resolved, f.content)])
            (saved ++ [⟨resolved, urlFor card_id resolved, (afterLastDot resolved).map pyLower⟩])

/-- Ingest a batch of raw uploads into a card directory with the given
initial listing. -/
def ingest (card_id : List Char) (files : List RawFile)
    (folder : List (List Char × List Nat)) :
    List (List Char × List Nat) × List StoredFile :=
  ingestLoop card_id files folder []

/-! ## The publish entry point (`admin_new` POST, lines 97-144) -/

/-- Persistent state touched by a publish request: the log file and the
uploads tree (one directory listing per card id). -/
structure Store where
  log : Option (List Char)
  uploads : List (List Char × List (List Char × List Nat))
deriving DecidableEq

/-- Directory listing of one card folder (empty when the directory does not
exist; `os.makedirs(..., exist_ok=True)` keeps existing contents). -/
def lookupFolder (ups : List (List Char × List (List Char × List Nat)))
    (cid : List Char) : List (List Char × List Nat) :=
  match ups.find? fun e => decide (e.1 = cid) with
  | some e => e.2
  | none => []

/-- Write back one card folder's listing. -/
def setFolder (ups : List (List Char × List (List Char × List Nat)))
    (cid : List Char) (folder : List (List Char × List Nat)) :
    List (List Char × List (List Char × List Nat)) :=
  if ups.any fun e => decide (e.1 = cid) then
    ups.map fun e => if e.1 = cid then (cid, folder) else e
  else ups ++ [(cid, folder)]

/-- Model of the POST branch of `admin_new` (lines 97-144).  The freshly
generated card id (`uuid4().hex[:10]`) and timestamp are passed as explicit
parameters.  An empty trimmed title is rejected before any disk effect
(lines 102-104); otherwise the files are ingested into the card folder, the
card record is built and appended to the log, and the published card is
returned. -/
def admin_new_post (title0 desc0 : List Char) (files : List RawFile)
    (card_id created_at : List Char) (st : Store) : Store × Option Json :=
  let title := pstrip title0
  let description := pstrip desc0
  if title = [] then (st, none)
  else
    let folder0 := lookupFolder st.uploads card_id
    let fsaved := ingest card_id files folder0
    let card : Json :=
      .obj (.cons (("id").data) (.str card_id)
        (.cons (("created_at").data) (.str created_at)
          (.cons (("title").data) (.str title)
            (.cons (("description").data) (.str description)
              (.cons (("files").data) (.arr (storedToJArr fsaved.2)) .nil)))))
    (⟨append_card st.log card, setFolder st.uploads card_id fsaved.1⟩, some card)

/-! ## Basic character and digit lemmas -/

theorem charToNat_ofNat {n : Nat} (h : n < 55296) : (Char.ofNat n).toNat = n := by
  unfold Char.ofNat
  split
  · rfl
  · rename_i hv
    exact absurd (Or.inl h) hv

theorem digitChar_spec {d : Nat} (h : d < 10) :
    isDigitCh (digitChar d) = true ∧ jsonWs (digitChar d) = false ∧
    pyWs (digitChar d) = false ∧ (digitChar d).toNat = 48 + d ∧
    digitChar d ≠ '-' ∧ digitChar d ≠ '\n' ∧
    digitChar d ≠ '\r' ∧ digitChar d ≠ ']' ∧ digitChar d ≠ '}' := by
  interval_cases d <;> exact ⟨rfl, rfl, rfl, rfl, by decide,
    by decide, by decide, by decide, by decide⟩

theorem digitChar_ne_zero {d : Nat} (h : d < 10) (h1 : 1 ≤ d) : digitChar d ≠ '0' := by
  interval_cases d <;> decide

theorem natDigitsGo_spec : ∀ (f n : Nat), n < f →
    natDigitsGo f n ≠ [] ∧
    (∀ c ∈ natDigitsGo f n, ∃ d, d < 10 ∧ c = digitChar d) ∧
    (∀ a : Nat, (natDigitsGo f n).foldl (fun a c => a * 10 + (c.toNat - 48)) a
      = a * 10 ^ (natDigitsGo f n).length + n) ∧
    (1 ≤ n → (natDigitsGo f n).head? ≠ some '0') := by
  intro f
  induction f with
  | zero => intro n hn; omega
  | succ f ih =>
    intro n hn
    by_cases h10 : n < 10
    · refine ⟨by simp [natDigitsGo, h10], ?_, ?_, ?_⟩
      · intro c hc
        simp [natDigitsGo, h10] at hc
        exact ⟨n, h10, hc⟩
      · intro a
        simp only [natDigitsGo, if_pos h10, List.foldl, List.length_singleton,
          (digitChar_spec h10).2.2.2.1, pow_one]
        omega
      · intro h1
        simp only [natDigitsGo, if_pos h10, List.head?]
        intro hc
        exact (digitChar_ne_zero h10 h1) (by injection hc)
    · have hdiv : n / 10 < f := by omega
      obtain ⟨ihne, ihmem, ihfold, ihhd⟩ := ih (n / 10) hdiv
      have hmod : n % 10 < 10 := Nat.mod_lt _ (by omega)
      refine ⟨by simp [natDigitsGo, h10], ?_, ?_, ?_⟩
      · intro c hc
        simp only [natDigitsGo, if_neg h10, List.mem_append, List.mem_singleton] at hc
        rcases hc with hc | hc
        · exact ihmem c hc
        · exact ⟨n % 10, hmod, hc⟩
      · intro a
        simp only [natDigitsGo, if_neg h10, List.foldl_append, List.foldl,
          List.length_append, List.length_singleton, ihfold a,
          (digitChar_spec hmod).2.2.2.1]
        rw [pow_succ]
        have := Nat.div_add_mod n 10
        ring_nf
        omega
      · intro _
        simp only [natDigitsGo, if_neg h10]
        rcases hne : natDigitsGo f (n / 10) with _ | ⟨c, cs⟩
        · exact absurd hne ihne
        · simpa [hne] using ihhd (by omega)

theorem natDigits_ne_nil (n : Nat) : natDigits n ≠ [] :=
  (natDigitsGo_spec (n + 1) n (Nat.lt_succ_self n)).1

theorem natDigits_digits (n : Nat) :
    ∀ c ∈ natDigits n, ∃ d, d < 10 ∧ c = digitChar d :=
  (natDigitsGo_spec (n + 1) n (Nat.lt_succ_self n)).2.1

theorem decodeDigits_natDigits (n : Nat) : decodeDigits (natDigits n) = n := by
  have := (natDigitsGo_spec (n + 1) n (Nat.lt_succ_self n)).2.2.1 0
  simpa [decodeDigits, natDigits] using this

theorem natDigits_injective {m n : Nat} (h : natDigits m = natDigits n) : m = n := by
  have hm := decodeDigits_natDigits m
  rw [h, decodeDigits_natDigits] at hm
  omega

theorem natDigits_head_ne_zero {n : Nat} (h : 1 ≤ n) :
    (natDigits n).head? ≠ some '0' :=
  (natDigitsGo_spec (n + 1) n (Nat.lt_succ_self n)).2.2.2 h

/-- Over a block of characters all satisfying `p` followed by input whose
head does not, `takeWhile`/`dropWhile` split exactly at the boundary. -/
theorem takeWhile_dropWhile_append {p : Char → Bool} :
    ∀ {a b : List Char}, (∀ x ∈ a, p x = true) →
    (∀ c, b.head? = some c → p c = false) →
    (a ++ b).takeWhile p = a ∧ (a ++ b).dropWhile p = b := by
  intro a
  induction a with
  | nil =>
    intro b _ hb
    rcases b with _ | ⟨c, cs⟩
    · exact ⟨rfl, rfl⟩
    · have := hb c rfl
      simp [List.takeWhile, List.dropWhile, this]
  | cons x a ih =>
    intro b ha hb
    have hx : p x = true := ha x (by simp)
    have := ih (fun y hy => ha y (by simp [hy])) hb
    simp [List.takeWhile_cons, List.dropWhile_cons, hx, this.1, this.2]

theorem parseUNum_natDigits {n : Nat} {rest : List Char}
    (hrest : noDigitHead rest = true) :
    parseUNum (natDigits n ++ rest) = some (n, rest) := by
  have hall : ∀ x ∈ natDigits n, isDigitCh x = true := by
    intro x hx
    obtain ⟨d, hd, rfl⟩ := natDigits_digits n x hx
    exact (digitChar_spec hd).1
  have hhd : ∀ c, rest.head? = some c → isDigitCh c = false := by
    intro c hc
    rcases rest with _ | ⟨r, rs⟩
    · simp at hc
    · injection hc with hc
      subst hc
      simpa [noDigitHead] using hrest
  obtain ⟨htake, hdrop⟩ := takeWhile_dropWhile_append hall hhd
  rcases hds : natDigits n with _ | ⟨d, ds⟩
  · exact absurd hds (natDigits_ne_nil n)
  · have hcond : ¬(d = '0' ∧ ds ≠ []) := by
      rintro ⟨rfl, hne⟩
      by_cases h1 : 1 ≤ n
      · exact natDigits_head_ne_zero h1 (by simp [hds])
      · have : n = 0 := by omega
        subst this
        have h0 : natDigits 0 = ['0'] := rfl
        rw [h0] at hds
        injection hds with _ h2
        exact hne h2.symm
    rw [hds] at htake hdrop
    rw [parseUNum, htake, hdrop]
    show (if d = '0' ∧ ds ≠ [] then none
      else some (decodeDigits (d :: ds), rest)) = some (n, rest)
    rw [if_neg hcond, ← hds, decodeDigits_natDigits]

/-! ## String-literal roundtrip -/

theorem hexVal_hexDigit {d : Nat} (h : d < 16) : hexVal (hexDigit d) = some d := by
  interval_cases d <;> rfl

theorem parseStr_escList (s : List Char) : ∀ rest : List Char,
    parseStr (escList s ++ '"' :: rest) = some (s, rest) := by
  induction s with
  | nil =>
    intro rest
    show parseStr ('"' :: rest) = some ([], rest)
    rw [parseStr.eq_def]
    simp
  | cons c s ih =>
    intro rest
    have hassoc : escList (c :: s) ++ '"' :: rest
        = escChar c ++ (escList s ++ '"' :: rest) := by
      simp [escList, List.append_assoc]
    rw [hassoc]
    by_cases h1 : c = '"'
    · subst h1; rw [escChar, if_pos rfl]
      rw [List.cons_append, List.cons_append, List.nil_append, parseStr.eq_def]
      simp [escDecode, ih]
    by_cases h2 : c = '\\'
    · subst h2; rw [escChar, if_neg h1, if_pos rfl]
      rw [List.cons_append, List.cons_append, List.nil_append, parseStr.eq_def]
      simp [escDecode, ih]
    by_cases h3 : c = '\n'
    · subst h3; rw [escChar, if_neg h1, if_neg h2, if_pos rfl]
      rw [List.cons_append, List.cons_append, List.nil_append, parseStr.eq_def]
      simp [escDecode, ih]
    by_cases h4 : c = '\r'
    · subst h4; rw [escChar, if_neg h1, if_neg h2, if_neg h3, if_pos rfl]
      rw [List.cons_append, List.cons_append, List.nil_append, parseStr.eq_def]
      simp [escDecode, ih]
    by_cases h5 : c = '\t'
    · subst h5; rw [escChar, if_neg h1, if_neg h2, if_neg h3, if_neg h4, if_pos rfl]
      rw [List.cons_append, List.cons_append, List.nil_append, parseStr.eq_def]
      simp [escDecode, ih]
    by_cases h6 : c = Char.ofNat 8
    · subst h6
      rw [escChar, if_neg h1, if_neg h2, if_neg h3, if_neg h4, if_neg h5, if_pos rfl]
      rw [List.cons_append, List.cons_append, List.nil_append, parseStr.eq_def]
      simp [escDecode, ih]
    by_cases h7 : c = Char.ofNat 12
    · subst h7
      rw [escChar, if_neg h1, if_neg h2, if_neg h3, if_neg h4, if_neg h5, if_neg h6,
        if_pos rfl]
      rw [List.cons_append, List.cons_append, List.nil_append, parseStr.eq_def]
      simp [escDecode, ih]
    by_cases h8 : c.toNat < 32
    · have hdiv : c.toNat / 16 < 16 := by omega
      have hmod : c.toNat % 16 < 16 := by omega
      rw [escChar, if_neg h1, if_neg h2, if_neg h3, if_neg h4, if_neg h5, if_neg h6,
        if_neg h7, if_pos h8]
      simp only [List.cons_append, List.nil_append]
      rw [parseStr.eq_def]
      simp only [if_neg (show ¬('\\' = '"') by decide), if_pos rfl, reduceIte]
      rw [show hexVal '0' = some 0 from rfl, hexVal_hexDigit hdiv, hexVal_hexDigit hmod,
        ih rest]
      show some (Char.ofNat (((0 * 16 + 0) * 16 + c.toNat / 16) * 16 + c.toNat % 16) :: s,
        rest) = some (c :: s, rest)
      have harith : ((0 * 16 + 0) * 16 + c.toNat / 16) * 16 + c.toNat % 16 = c.toNat := by
        omega
      rw [harith, Char.ofNat_toNat]
    · rw [escChar, if_neg h1, if_neg h2, if_neg h3, if_neg h4, if_neg h5, if_neg h6,
        if_neg h7, if_neg h8]
      simp only [List.cons_append, List.nil_append]
      rw [parseStr.eq_def]
      simp [h1, h2, h8, ih]

/-! ## Serializer shape lemmas and whitespace absorption -/

theorem skipWs_cons {c : Char} (t : List Char) (h : jsonWs c = false) :
    skipWs (c :: t) = c :: t := by
  simp [skipWs, List.dropWhile_cons, h]

theorem jsize_pos : ∀ v : Json, 1 ≤ jsize v
  | .null => le_refl 1
  | .bool _ => le_refl 1
  | .num _ => le_refl 1
  | .str _ => le_refl 1
  | .arr a => by simp [jsize]
  | .obj o => by simp [jsize]

/-- Every serialized value starts with a character that is not whitespace,
not a closing bracket, not a comma and not a closing brace. -/
theorem serVal_head (v : Json) : ∃ c t, serVal v = c :: t ∧ jsonWs c = false ∧
    pyWs c = false ∧ c ≠ ']' ∧ c ≠ '}' ∧ c ≠ ',' := by
  cases v with
  | null => exact ⟨'n', _, rfl, by decide, by decide, by decide, by decide, by decide⟩
  | bool b =>
    cases b with
    | true => exact ⟨'t', _, rfl, by decide, by decide, by decide, by decide, by decide⟩
    | false => exact ⟨'f', _, rfl, by decide, by decide, by decide, by decide, by decide⟩
  | num n =>
    show ∃ c t, serInt n = c :: t ∧ _
    rw [serInt]
    split
    · exact ⟨'-', _, rfl, by decide, by decide, by decide, by decide, by decide⟩
    · rcases hds : natDigits n.natAbs with _ | ⟨d, ds⟩
      · exact absurd hds (natDigits_ne_nil _)
      · obtain ⟨δ, hδ, hd⟩ := natDigits_digits n.natAbs d (by simp [hds])
        subst hd
        obtain ⟨_, hws, hpws, _, _, _, _, h2, h3⟩ := digitChar_spec hδ
        refine ⟨digitChar δ, ds, rfl, hws, hpws, h2, h3, ?_⟩
        have htn := (digitChar_spec hδ).2.2.2.1
        intro hc
        rw [hc] at htn
        simp only [show (',').toNat = 44 from rfl] at htn
        omega
  | str s => exact ⟨'"', _, rfl, by decide, by decide, by decide, by decide, by decide⟩
  | arr a =>
    cases a with
    | nil => exact ⟨'[', _, rfl, by decide, by decide, by decide, by decide, by decide⟩
    | cons x xs => exact ⟨'[', _, rfl, by decide, by decide, by decide, by decide, by decide⟩
  | obj o =>
    cases o with
    | nil => exact ⟨'{', _, rfl, by decide, by decide, by decide, by decide, by decide⟩
    | cons k v ms =>
      exact ⟨'{', _, rfl, by decide, by decide, by decide, by decide, by decide⟩

theorem parseVal_ws {c : Char} (h : jsonWs c = true) :
    ∀ (f : Nat) (cs : List Char), parseVal f (c :: cs) = parseVal f cs := by
  intro f cs
  cases f with
  | zero => rfl
  | succ g =>
    rw [parseVal.eq_def]
    conv_rhs => rw [parseVal.eq_def]
    have : skipWs (c :: cs) = skipWs cs := by
      simp [skipWs, List.dropWhile_cons, h]
    simp only [this]

theorem parseElems_ws {c : Char} (h : jsonWs c = true) :
    ∀ (f : Nat) (cs : List Char), parseElems f (c :: cs) = parseElems f cs := by
  intro f cs
  cases f with
  | zero => rfl
  | succ g =>
    rw [parseElems.eq_def]
    conv_rhs => rw [parseElems.eq_def]
    simp only [parseVal_ws h]

theorem parseMembers_ws {c : Char} (h : jsonWs c = true) :
    ∀ (f : Nat) (cs : List Char), parseMembers f (c :: cs) = parseMembers f cs := by
  intro f cs
  cases f with
  | zero => rfl
  | succ g =>
    rw [parseMembers.eq_def]
    conv_rhs => rw [parseMembers.eq_def]
    have : skipWs (c :: cs) = skipWs cs := by
      simp [skipWs, List.dropWhile_cons, h]
    simp only [this]

/-! ## The serializer/parser roundtrip -/

/-- Combined roundtrip statement, proved by induction on the parser fuel:
with enough fuel, parsing a serialized value (element list, member list)
returns exactly that value and the unconsumed input. -/
theorem rt_combined : ∀ f : Nat,
    (∀ (v : Json) (rest : List Char), jsize v ≤ f → noDigitHead rest = true →
      parseVal f (serVal v ++ rest) = some (v, rest)) ∧
    (∀ (x : Json) (xs : JArr) (rest : List Char), jsizeA (JArr.cons x xs) ≤ f →
      parseElems f (serVal x ++ (serArrTail xs ++ ']' :: rest))
        = some (JArr.cons x xs, rest)) ∧
    (∀ (k : List Char) (v : Json) (ms : JObj) (rest : List Char),
      jsizeO (JObj.cons k v ms) ≤ f →
      parseMembers f (serStr k ++ ':' :: ' ' :: serVal v ++ (serObjTail ms ++ '}' :: rest))
        = some (JObj.cons k v ms, rest)) := by
  intro f
  induction f with
  | zero =>
    refine ⟨?_, ?_, ?_⟩
    · intro v rest hsize _
      exact absurd (le_trans (jsize_pos v) hsize) (by omega)
    · intro x xs rest hsize
      simp only [jsizeA] at hsize
      omega
    · intro k v ms rest hsize
      simp only [jsizeO] at hsize
      omega
  | succ g ih =>
    obtain ⟨ihv, iha, iho⟩ := ih
    refine ⟨?_, ?_, ?_⟩
    · intro v rest hsize hrest
      cases v with
      | null =>
        rw [show serVal .null ++ rest = 'n' :: 'u' :: 'l' :: 'l' :: rest from rfl]
        rw [parseVal.eq_def]
        simp [skipWs, jsonWs, isDigitCh, stripLit]
      | bool b =>
        cases b with
        | true =>
          rw [show serVal (.bool true) ++ rest = 't' :: 'r' :: 'u' :: 'e' :: rest from rfl]
          rw [parseVal.eq_def]
          simp [skipWs, jsonWs, isDigitCh, stripLit]
        | false =>
          rw [show serVal (.bool false) ++ rest
            = 'f' :: 'a' :: 'l' :: 's' :: 'e' :: rest from rfl]
          rw [parseVal.eq_def]
          simp [skipWs, jsonWs, isDigitCh, stripLit]
      | num n =>
        rcases n with m | m
        · rw [show serVal (.num (Int.ofNat m)) = natDigits m by
            simp [serVal, serInt, Int.natAbs_ofNat]]
          rcases hds : natDigits m with _ | ⟨d, ds⟩
          · exact absurd hds (natDigits_ne_nil m)
          obtain ⟨δ, hδ, hd⟩ := natDigits_digits m d (by simp [hds])
          subst hd
          have hnum := @parseUNum_natDigits m rest hrest
          rw [hds, List.cons_append] at hnum
          rw [List.cons_append, parseVal.eq_def]
          simp [skipWs, List.dropWhile_cons, (digitChar_spec hδ).2.1,
            (digitChar_spec hδ).1, hnum]
        · rw [show serVal (.num (Int.negSucc m)) ++ rest
              = '-' :: (natDigits (m + 1) ++ rest) by
            simp [serVal, serInt, Int.negSucc_lt_zero]]
          have hnum := @parseUNum_natDigits (m + 1) rest hrest
          rw [parseVal.eq_def]
          simp [skipWs, List.dropWhile_cons, hnum, show jsonWs '-' = false from rfl,
            show isDigitCh '-' = false from rfl]
          rw [Int.negSucc_eq]
          ring
      | str s =>
        rw [show serVal (.str s) ++ rest = '"' :: (escList s ++ '"' :: rest) by
          simp [serVal, serStr, List.append_assoc]]
        rw [parseVal.eq_def]
        simp [skipWs, jsonWs, isDigitCh, parseStr_escList]
      | arr a =>
        cases a with
        | nil =>
          rw [show serVal (.arr .nil) ++ rest = '[' :: ']' :: rest from rfl]
          rw [parseVal.eq_def]
          simp [skipWs, jsonWs, isDigitCh]
        | cons x xs =>
          obtain ⟨c, t, hx, hws, _, hrb, _, _⟩ := serVal_head x
          have harr := iha x xs rest (by simp only [jsize] at hsize; omega)
          rw [show serVal (.arr (.cons x xs)) ++ rest
              = '[' :: (serVal x ++ (serArrTail xs ++ ']' :: rest)) by
            simp [serVal, List.append_assoc]]
          rw [hx, List.cons_append] at harr ⊢
          rw [parseVal.eq_def]
          simp [skipWs, List.dropWhile_cons, hws, hrb, harr,
            show jsonWs '[' = false from rfl, show isDigitCh '[' = false from rfl]
      | obj o =>
        cases o with
        | nil =>
          rw [show serVal (.obj .nil) ++ rest = '{' :: '}' :: rest from rfl]
          rw [parseVal.eq_def]
          simp [skipWs, jsonWs, isDigitCh]
        | cons k v ms =>
          have hobj := iho k v ms rest (by simp only [jsize] at hsize; omega)
          rw [show serVal (.obj (.cons k v ms)) ++ rest
              = '{' :: (serStr k ++ ':' :: ' ' :: serVal v
                ++ (serObjTail ms ++ '}' :: rest)) by
            simp [serVal, List.append_assoc]]
          rw [show serStr k ++ ':' :: ' ' :: serVal v ++ (serObjTail ms ++ '}' :: rest)
              = '"' :: (escList k ++ '"' :: (':' :: ' ' :: serVal v
                ++ (serObjTail ms ++ '}' :: rest))) by
            simp [serStr, List.append_assoc]] at hobj ⊢
          rw [parseVal.eq_def]
          simp only [List.append_assoc, List.cons_append, List.nil_append] at hobj
          simp [skipWs, List.dropWhile_cons, hobj, List.append_assoc,
            show jsonWs '{' = false from rfl, show isDigitCh '{' = false from rfl,
            show jsonWs '"' = false from rfl]
    · intro x xs rest hsize
      have hx := ihv x (serArrTail xs ++ ']' :: rest)
        (by simp only [jsizeA] at hsize; omega)
        (by cases xs with
            | nil => rfl
            | cons y ys => rfl)
      rw [parseElems.eq_def]
      cases xs with
      | nil =>
        rw [show serArrTail JArr.nil ++ ']' :: rest = ']' :: rest from rfl] at hx ⊢
        simp [hx, skipWs, List.dropWhile_cons, show jsonWs ']' = false from rfl]
      | cons y ys =>
        have hrec := iha y ys rest (by simp only [jsizeA] at hsize ⊢; omega)
        have habsorb : parseElems g (' ' :: (serVal y ++ (serArrTail ys ++ ']' :: rest)))
            = parseElems g (serVal y ++ (serArrTail ys ++ ']' :: rest)) :=
          parseElems_ws (by decide) g _
        rw [show serArrTail (JArr.cons y ys) ++ ']' :: rest
            = ',' :: ' ' :: (serVal y ++ (serArrTail ys ++ ']' :: rest)) by
          simp [serArrTail, List.append_assoc]] at hx ⊢
        simp [hx, skipWs, List.dropWhile_cons, habsorb, hrec,
          show jsonWs ',' = false from rfl]
    · intro k v ms rest hsize
      have hv := ihv v (serObjTail ms ++ '}' :: rest)
        (by simp only [jsizeO] at hsize; omega)
        (by cases ms with
            | nil => rfl
            | cons k2 v2 ms2 => rfl)
      have habs : parseVal g (' ' :: (serVal v ++ (serObjTail ms ++ '}' :: rest)))
          = parseVal g (serVal v ++ (serObjTail ms ++ '}' :: rest)) :=
        parseVal_ws (by decide) g _
      rw [show serStr k ++ ':' :: ' ' :: serVal v ++ (serObjTail ms ++ '}' :: rest)
          = '"' :: (escList k ++ '"' :: (':' :: ' ' :: (serVal v
            ++ (serObjTail ms ++ '}' :: rest)))) by
        simp [serStr, List.append_assoc]]
      have hk := parseStr_escList k
        (':' :: ' ' :: (serVal v ++ (serObjTail ms ++ '}' :: rest)))
      rw [parseMembers.eq_def]
      cases ms with
      | nil =>
        rw [show serObjTail JObj.nil ++ '}' :: rest = '}' :: rest from rfl] at hv habs hk ⊢
        simp only [List.append_assoc, List.cons_append, List.nil_append] at hv habs hk ⊢
        simp [skipWs, List.dropWhile_cons, hk, habs, hv,
          show jsonWs '"' = false from rfl, show jsonWs ':' = false from rfl,
          show jsonWs '}' = false from rfl]
      | cons k2 v2 ms2 =>
        have hrec := iho k2 v2 ms2 rest (by simp only [jsizeO] at hsize ⊢; omega)
        have habs2 : parseMembers g (' ' :: (serStr k2 ++ ':' :: ' ' :: serVal v2
              ++ (serObjTail ms2 ++ '}' :: rest)))
            = parseMembers g (serStr k2 ++ ':' :: ' ' :: serVal v2
              ++ (serObjTail ms2 ++ '}' :: rest)) :=
          parseMembers_ws (by decide) g _
        rw [show serObjTail (JObj.cons k2 v2 ms2) ++ '}' :: rest
            = ',' :: ' ' :: (serStr k2 ++ ':' :: ' ' :: serVal v2
              ++ (serObjTail ms2 ++ '}' :: rest)) by
          simp [serObjTail, List.append_assoc]] at hv habs hk ⊢
        simp only [serStr, List.append_assoc, List.cons_append, List.nil_append]
          at hv habs hk hrec habs2 ⊢
        simp [skipWs, List.dropWhile_cons, hk, habs, hv, hrec, habs2,
          show jsonWs '"' = false from rfl, show jsonWs ':' = false from rfl,
          show jsonWs ',' = false from rfl]

/-- Roundtrip for one value: with sufficient fuel, parsing the serialization
of `v` followed by non-digit input returns `v` exactly. -/
theorem rt_val (v : Json) (f : Nat) (rest : List Char) (hsize : jsize v ≤ f)
    (hrest : noDigitHead rest = true) :
    parseVal f (serVal v ++ rest) = some (v, rest) :=
  (rt_combined f).1 v rest hsize hrest

mutual

/-- The fuel `jsize v` is at most the serialized length plus one. -/
theorem jsize_le_serLen (v : Json) : jsize v ≤ (serVal v).length + 1 := by
  cases v with
  | null => simp [jsize, serVal]
  | bool b => cases b <;> simp [jsize, serVal]
  | num n => simp [jsize]
  | str s => simp [jsize]
  | arr a =>
    cases a with
    | nil => simp [jsize, jsizeA, serVal]
    | cons x xs =>
      have h1 := jsize_le_serLen x
      have h2 := jsizeA_le_serLen xs
      simp only [jsize, jsizeA, serVal, List.length_cons, List.length_append,
        List.length_singleton]
      omega
  | obj o =>
    cases o with
    | nil => simp [jsize, jsizeO, serVal]
    | cons k v ms =>
      have h1 := jsize_le_serLen v
      have h2 := jsizeO_le_serLen ms
      simp only [jsize, jsizeO, serVal, List.length_cons, List.length_append,
        List.length_singleton]
      omega

theorem jsizeA_le_serLen (xs : JArr) : jsizeA xs ≤ (serArrTail xs).length := by
  cases xs with
  | nil => simp [jsizeA, serArrTail]
  | cons x xs =>
    have h1 := jsize_le_serLen x
    have h2 := jsizeA_le_serLen xs
    simp only [jsizeA, serArrTail, List.length_cons, List.length_append]
    omega

theorem jsizeO_le_serLen (ms : JObj) : jsizeO ms ≤ (serObjTail ms).length := by
  cases ms with
  | nil => simp [jsizeO, serObjTail]
  | cons k v ms =>
    have h1 := jsize_le_serLen v
    have h2 := jsizeO_le_serLen ms
    simp only [jsizeO, serObjTail, List.length_cons, List.length_append]
    omega

end

/-- `json.loads` inverts `json.dumps` on every JSON value. -/
theorem json_loads_serVal (v : Json) : json_loads (serVal v) = some v := by
  have h := rt_val v ((serVal v).length + 1) [] (jsize_le_serLen v) rfl
  rw [List.append_nil] at h
  rw [json_loads, h]
  rfl

/-! ## Line-splitting lemmas -/

theorem sl_nl (cs : List Char) : splitLines ('\n' :: cs) = [] :: splitLines cs := by
  rw [splitLines.eq_def]
  cases cs <;> simp

theorem sl_crnl (cs : List Char) :
    splitLines ('\r' :: '\n' :: cs) = [] :: splitLines cs := by
  rw [splitLines.eq_def]
  rfl

theorem sl_cr_cons {c : Char} (cs : List Char) (h : c ≠ '\n') :
    splitLines ('\r' :: c :: cs) = [] :: splitLines (c :: cs) := by
  rw [splitLines.eq_def]
  simp [h]

theorem sl_cons {c : Char} (cs : List Char) (h1 : c ≠ '\n') (h2 : c ≠ '\r') :
    splitLines (c :: cs) =
      match splitLines cs with
      | [] => [[]]
      | l :: ls => (c :: l) :: ls := by
  rw [splitLines.eq_def]
  cases cs <;> simp [h1, h2]

theorem splitLines_ne_nil (cs : List Char) : splitLines cs ≠ [] := by
  match cs with
  | [] => simp [splitLines]
  | '\n' :: t => rw [sl_nl]; simp
  | ['\r'] => simp [splitLines]
  | '\r' :: d :: t =>
    by_cases hd : d = '\n'
    · subst hd; rw [sl_crnl]; simp
    · rw [sl_cr_cons t hd]; simp
  | c :: t =>
    by_cases h1 : c = '\n'
    · subst h1; rw [sl_nl]; simp
    by_cases h2 : c = '\r'
    · subst h2
      match t with
      | [] => simp [splitLines]
      | d :: t2 =>
        by_cases hd : d = '\n'
        · subst hd; rw [sl_crnl]; simp
        · rw [sl_cr_cons t2 hd]; simp
    · rw [sl_cons t h1 h2]
      rcases splitLines t with _ | ⟨l, ls⟩ <;> simp

theorem splitLines_length_pos (cs : List Char) : 1 ≤ (splitLines cs).length := by
  rcases hsp : splitLines cs with _ | ⟨l, ls⟩
  · exact absurd hsp (splitLines_ne_nil _)
  · simp

theorem splitLines_noBreak {l : List Char} (h : noBreakLine l = true) :
    splitLines l = [l] := by
  induction l with
  | nil => rfl
  | cons c t ih =>
    simp only [noBreakLine, List.all_cons, Bool.and_eq_true, decide_eq_true_eq] at h
    obtain ⟨⟨hn, hr⟩, ht⟩ := h
    rw [sl_cons t hn hr, ih (by simpa [noBreakLine] using ht)]

theorem splitLines_join {l : List Char} (r : List Char) (h : noBreakLine l = true) :
    splitLines (l ++ '\n' :: r) = l :: splitLines r := by
  induction l with
  | nil => simpa using sl_nl r
  | cons c t ih =>
    simp only [noBreakLine, List.all_cons, Bool.and_eq_true, decide_eq_true_eq] at h
    obtain ⟨⟨hn, hr⟩, ht⟩ := h
    rw [List.cons_append, sl_cons (t ++ '\n' :: r) hn hr,
      ih (by simpa [noBreakLine] using ht)]

theorem splitLines_append_endsNL (b : List Char) :
    ∀ a : List Char, a.getLast? = some '\n' →
    splitLines (a ++ b) = (splitLines a).dropLast ++ splitLines b ∧
      2 ≤ (splitLines a).length := by
  intro a
  match a with
  | [] => intro h; simp at h
  | [c] =>
    intro h
    have hc : c = '\n' := by simpa using h
    subst hc
    refine ⟨?_, by rw [sl_nl]; simpa using splitLines_length_pos []⟩
    rw [List.cons_append, List.nil_append, sl_nl, sl_nl]
    rfl
  | c :: d :: t =>
    intro h
    have hlast : (d :: t).getLast? = some '\n' := by
      rwa [List.getLast?_cons_cons] at h
    by_cases h1 : c = '\n'
    · subst h1
      obtain ⟨ih1, ih2⟩ := splitLines_append_endsNL b (d :: t) hlast
      rcases hsp : splitLines (d :: t) with _ | ⟨l, ls⟩
      · exact absurd hsp (splitLines_ne_nil _)
      rw [hsp] at ih1 ih2
      constructor
      · rw [List.cons_append, sl_nl, sl_nl, ih1, hsp]
        simp
      · rw [sl_nl, hsp]
        simp
    by_cases h2 : c = '\r'
    · subst h2
      by_cases hd : d = '\n'
      · subst hd
        have hlen2 : 2 ≤ (splitLines ('\r' :: '\n' :: t)).length := by
          rw [sl_crnl]
          simpa using splitLines_length_pos t
        rcases t with _ | ⟨e, t2⟩
        · refine ⟨?_, hlen2⟩
          rw [List.cons_append, List.cons_append, List.nil_append, sl_crnl, sl_crnl]
          rfl
        · have hlast2 : (e :: t2).getLast? = some '\n' := by
            rwa [List.getLast?_cons_cons] at hlast
          obtain ⟨ih1, ih2⟩ := splitLines_append_endsNL b (e :: t2) hlast2
          rcases hsp : splitLines (e :: t2) with _ | ⟨l, ls⟩
          · exact absurd hsp (splitLines_ne_nil _)
          rw [hsp] at ih1 ih2
          refine ⟨?_, hlen2⟩
          rw [List.cons_append, List.cons_append, sl_crnl, sl_crnl, ih1, hsp]
          simp
      · obtain ⟨ih1, ih2⟩ := splitLines_append_endsNL b (d :: t) hlast
        rcases hsp : splitLines (d :: t) with _ | ⟨l, ls⟩
        · exact absurd hsp (splitLines_ne_nil _)
        rw [hsp] at ih1 ih2
        constructor
        · rw [List.cons_append, List.cons_append, sl_cr_cons (t ++ b) hd,
            ← List.cons_append, ih1, sl_cr_cons t hd, hsp]
          simp
        · rw [sl_cr_cons t hd, hsp]
          simp
    · obtain ⟨ih1, ih2⟩ := splitLines_append_endsNL b (d :: t) hlast
      rcases hsp : splitLines (d :: t) with _ | ⟨l, ls⟩
      · exact absurd hsp (splitLines_ne_nil _)
      rcases ls with _ | ⟨l2, ls2⟩
      · rw [hsp] at ih2; simp at ih2
      rw [hsp] at ih1 ih2
      constructor
      · rw [List.cons_append, sl_cons ((d :: t) ++ b) h1 h2, ih1,
          sl_cons (d :: t) h1 h2, hsp]
        simp
      · rw [sl_cons (d :: t) h1 h2, hsp]
        simp


/-! ## Loading and appending log records -/

theorem hexDigit_spec {d : Nat} (h : d < 16) :
    hexDigit d ≠ '\n' ∧ hexDigit d ≠ '\r' := by
  interval_cases d <;> exact ⟨by decide, by decide⟩

theorem escChar_noBreak {c : Char} : ∀ x ∈ escChar c, x ≠ '\n' ∧ x ≠ '\r' := by
  intro x hx
  rw [escChar] at hx
  split_ifs at hx with h1 h2 h3 h4 h5 h6 h7 h8
  · simp only [List.mem_cons, List.not_mem_nil, or_false] at hx
    rcases hx with rfl | rfl <;> exact ⟨by decide, by decide⟩
  · simp only [List.mem_cons, List.not_mem_nil, or_false] at hx
    rcases hx with rfl | rfl <;> exact ⟨by decide, by decide⟩
  · simp only [List.mem_cons, List.not_mem_nil, or_false] at hx
    rcases hx with rfl | rfl <;> exact ⟨by decide, by decide⟩
  · simp only [List.mem_cons, List.not_mem_nil, or_false] at hx
    rcases hx with rfl | rfl <;> exact ⟨by decide, by decide⟩
  · simp only [List.mem_cons, List.not_mem_nil, or_false] at hx
    rcases hx with rfl | rfl <;> exact ⟨by decide, by decide⟩
  · simp only [List.mem_cons, List.not_mem_nil, or_false] at hx
    rcases hx with rfl | rfl <;> exact ⟨by decide, by decide⟩
  · simp only [List.mem_cons, List.not_mem_nil, or_false] at hx
    rcases hx with rfl | rfl <;> exact ⟨by decide, by decide⟩
  · simp only [List.mem_cons, List.not_mem_nil, or_false] at hx
    rcases hx with rfl | rfl | rfl | rfl | rfl | rfl
    · exact ⟨by decide, by decide⟩
    · exact ⟨by decide, by decide⟩
    · exact ⟨by decide, by decide⟩
    · exact ⟨by decide, by decide⟩
    · exact hexDigit_spec (by omega)
    · exact hexDigit_spec (by omega)
  · simp only [List.mem_singleton] at hx
    subst hx
    constructor
    · intro he; subst he; exact h8 (by decide)
    · intro he; subst he; exact h8 (by decide)

theorem noBreak_escList (s : List Char) : noBreakLine (escList s) = true := by
  induction s with
  | nil => rfl
  | cons c t ih =>
    rw [escList, noBreakLine, List.all_append]
    refine Bool.and_eq_true_iff.mpr ⟨?_, by simpa [noBreakLine] using ih⟩
    rw [List.all_eq_true]
    intro x hx
    have := escChar_noBreak x hx
    simpa using this

theorem noBreak_natDigits (m : Nat) : noBreakLine (natDigits m) = true := by
  rw [noBreakLine, List.all_eq_true]
  intro x hx
  obtain ⟨d, hd, rfl⟩ := natDigits_digits m x hx
  have h1 := (digitChar_spec hd).2.2.2.2.2.1
  have h2 := (digitChar_spec hd).2.2.2.2.2.2.1
  simp [h1, h2]

mutual

theorem noBreak_serVal (v : Json) : noBreakLine (serVal v) = true := by
  cases v with
  | null => rfl
  | bool b => cases b <;> rfl
  | num n =>
    show noBreakLine (serInt n) = true
    rw [serInt]
    split
    · rw [show ('-' : Char) :: natDigits n.natAbs = ['-'] ++ natDigits n.natAbs from rfl,
        noBreakLine, List.all_append]
      refine Bool.and_eq_true_iff.mpr ⟨by decide, ?_⟩
      simpa [noBreakLine] using noBreak_natDigits n.natAbs
    · exact noBreak_natDigits n.natAbs
  | str s =>
    show noBreakLine ('"' :: escList s ++ ['"']) = true
    rw [show ('"' : Char) :: escList s ++ ['"'] = ['"'] ++ escList s ++ ['"'] from rfl,
      noBreakLine, List.all_append, List.all_append]
    have := noBreak_escList s
    simp_all [noBreakLine]
  | arr a =>
    cases a with
    | nil => rfl
    | cons x xs =>
      have h1 := noBreak_serVal x
      have h2 := noBreak_serArrTail xs
      rw [show serVal (.arr (.cons x xs)) = ['['] ++ serVal x ++ serArrTail xs ++ [']'] by
        simp [serVal, List.append_assoc], noBreakLine]
      simp_all [noBreakLine]
  | obj o =>
    cases o with
    | nil => rfl
    | cons k v ms =>
      have h1 := noBreak_serVal v
      have h2 := noBreak_serObjTail ms
      have h3 := noBreak_escList k
      rw [show serVal (.obj (.cons k v ms))
          = ['{', '"'] ++ escList k ++ ['"', ':', ' '] ++ serVal v ++ serObjTail ms ++ ['}'] by
        simp [serVal, serStr, List.append_assoc], noBreakLine]
      simp_all [noBreakLine]

theorem noBreak_serArrTail (xs : JArr) : noBreakLine (serArrTail xs) = true := by
  cases xs with
  | nil => rfl
  | cons x xs =>
    have h1 := noBreak_serVal x
    have h2 := noBreak_serArrTail xs
    rw [show serArrTail (.cons x xs) = [',', ' '] ++ serVal x ++ serArrTail xs by
      simp [serArrTail, List.append_assoc], noBreakLine]
    simp_all [noBreakLine]

theorem noBreak_serObjTail (ms : JObj) : noBreakLine (serObjTail ms) = true := by
  cases ms with
  | nil => rfl
  | cons k v ms =>
    have h1 := noBreak_serVal v
    have h2 := noBreak_serObjTail ms
    have h3 := noBreak_escList k
    rw [show serObjTail (.cons k v ms)
        = [',', ' ', '"'] ++ escList k ++ ['"', ':', ' '] ++ serVal v ++ serObjTail ms by
      simp [serObjTail, serStr, List.append_assoc], noBreakLine]
    simp_all [noBreakLine]

end

/-- Every serialized value ends with a character that Python's `strip` does
not remove. -/
theorem serVal_last (v : Json) : ∃ e, (serVal v).getLast? = some e ∧ pyWs e = false := by
  cases v with
  | null => exact ⟨'l', by decide, by decide⟩
  | bool b => cases b with
    | true => exact ⟨'e', by decide, by decide⟩
    | false => exact ⟨'e', by decide, by decide⟩
  | num n =>
    show ∃ e, (serInt n).getLast? = some e ∧ pyWs e = false
    have hlast : ∃ e, (natDigits n.natAbs).getLast? = some e ∧ pyWs e = false := by
      rcases hds : natDigits n.natAbs with _ | ⟨d, ds⟩
      · exact absurd hds (natDigits_ne_nil _)
      · have hmem : (d :: ds).getLast (by simp) ∈ d :: ds := List.getLast_mem _
        obtain ⟨δ, hδ, hd2⟩ := natDigits_digits n.natAbs _ (by rw [hds]; exact hmem)
        refine ⟨(d :: ds).getLast (by simp), ?_, ?_⟩
        · exact List.getLast?_eq_getLast _ _
        · rw [hd2]; exact (digitChar_spec hδ).2.2.1
    rw [serInt]
    split
    · obtain ⟨e, he, hw⟩ := hlast
      refine ⟨e, ?_, hw⟩
      rcases hds : natDigits n.natAbs with _ | ⟨d, ds⟩
      · exact absurd hds (natDigits_ne_nil _)
      · rw [List.getLast?_cons_cons, ← hds]
        exact he
    · exact hlast
  | str s =>
    refine ⟨'"', ?_, by decide⟩
    show (('"' :: escList s) ++ ['"']).getLast? = some '"'
    exact List.getLast?_concat _
  | arr a =>
    cases a with
    | nil => exact ⟨']', by decide, by decide⟩
    | cons x xs =>
      refine ⟨']', ?_, by decide⟩
      rw [show serVal (.arr (.cons x xs)) = ('[' :: (serVal x ++ serArrTail xs)) ++ [']'] by
        simp [serVal, List.append_assoc]]
      exact List.getLast?_concat _
  | obj o =>
    cases o with
    | nil => exact ⟨'}', by decide, by decide⟩
    | cons k v ms =>
      refine ⟨'}', ?_, by decide⟩
      rw [show serVal (.obj (.cons k v ms))
          = ('{' :: (serStr k ++ ':' :: ' ' :: serVal v ++ serObjTail ms)) ++ ['}'] by
        simp [serVal, List.append_assoc]]
      exact List.getLast?_concat _

theorem pstrip_eq_self {l : List Char}
    (hh : ∀ c, l.head? = some c → pyWs c = false)
    (hl : ∀ c, l.getLast? = some c → pyWs c = false) : pstrip l = l := by
  rcases l with _ | ⟨c, t⟩
  · rfl
  · rw [pstrip, List.dropWhile_cons, if_neg (by simp [hh c rfl])]
    rcases hrev : (c :: t).reverse with _ | ⟨e, r⟩
    · simp at hrev
    · have he : pyWs e = false := by
        refine hl e ?_
        rw [← List.head?_reverse, hrev]
        rfl
      have hdw : List.dropWhile pyWs (e :: r) = e :: r := by
        rw [List.dropWhile_cons, if_neg (by simp [he])]
      rw [hdw, ← hrev, List.reverse_reverse]

theorem pstrip_serVal (v : Json) : pstrip (serVal v) = serVal v := by
  obtain ⟨c, t, hct, _, hpw, _, _, _⟩ := serVal_head v
  obtain ⟨e, he, hew⟩ := serVal_last v
  refine pstrip_eq_self ?_ ?_
  · intro c2 hc2
    rw [hct] at hc2
    injection hc2 with hc2
    subst hc2
    exact hpw
  · intro e2 he2
    rw [he] at he2
    injection he2 with he2
    subst he2
    exact hew

theorem processLine_serVal (v : Json) : processLine (serVal v) = some v := by
  obtain ⟨c, t, hct, _, _, _, _, _⟩ := serVal_head v
  rw [processLine]
  simp only [pstrip_serVal]
  rw [if_neg (by rw [hct]; simp), json_loads_serVal]

theorem processLine_nil : processLine [] = none := rfl

theorem loadLoop_filterMap : ∀ (ls : List (List Char)) (acc : List Json),
    loadLoop ls acc = acc ++ ls.filterMap processLine := by
  intro ls
  induction ls with
  | nil => intro acc; simp [loadLoop]
  | cons l ls ih =>
    intro acc
    rw [loadLoop, List.filterMap_cons]
    by_cases hs : pstrip l = []
    · rw [if_pos hs, ih, show processLine l = none by rw [processLine]; simp [hs]]
    · rw [if_neg hs]
      have hpl : processLine l = json_loads (pstrip l) := by
        rw [processLine]; simp [hs]
      rcases hj : json_loads (pstrip l) with _ | v
      · simp [ih, hpl, hj]
      · simp [ih, hpl, hj]

theorem load_cards_some (cs : List Char) :
    load_cards (some cs) = (splitLines cs).filterMap processLine := by
  rw [load_cards, loadLoop_filterMap, List.nil_append]

theorem goodLog_append (st : Option (List Char)) (v : Json) :
    goodLog (append_card st v) = true := by
  rw [append_card]
  have hlast : (st.getD [] ++ serVal v ++ ['\n']).getLast? = some '\n' :=
    List.getLast?_concat _
  rcases hl : st.getD [] ++ serVal v ++ ['\n'] with _ | ⟨c, t⟩
  · simp at hl
  · rw [hl] at hlast
    rw [goodLog.eq_def]
    simp [hlast]

/-- Appending a record to a well-formed log adds exactly that record at the
end of what `load_cards` returns. -/
theorem loadCards_append {st : Option (List Char)} (v : Json)
    (h : goodLog st = true) :
    load_cards (append_card st v) = load_cards st ++ [v] := by
  have hval : splitLines (serVal v ++ '\n' :: []) = [serVal v, []] := by
    rw [splitLines_join [] (noBreak_serVal v)]
    rfl
  have hproc : List.filterMap processLine [serVal v, []] = [v] := by
    simp [List.filterMap_cons, processLine_serVal, processLine_nil]
  rcases st with _ | cs
  · rw [append_card]
    show load_cards (some ([] ++ serVal v ++ ['\n'])) = load_cards none ++ [v]
    rw [List.nil_append, load_cards_some,
      show serVal v ++ ['\n'] = serVal v ++ '\n' :: [] from rfl, hval, hproc]
    rfl
  · rcases cs with _ | ⟨c, t⟩
    · rw [append_card]
      show load_cards (some ([] ++ serVal v ++ ['\n'])) = load_cards (some []) ++ [v]
      rw [List.nil_append, load_cards_some,
        show serVal v ++ ['\n'] = serVal v ++ '\n' :: [] from rfl, hval, hproc]
      rfl
    · have hnl : (c :: t).getLast? = some '\n' := by
        rw [goodLog.eq_def] at h
        simpa using h
      obtain ⟨hsplit, _⟩ := splitLines_append_endsNL (serVal v ++ '\n' :: []) (c :: t) hnl
      obtain ⟨hself, _⟩ := splitLines_append_endsNL [] (c :: t) hnl
      rw [List.append_nil] at hself
      rw [append_card]
      show load_cards (some ((c :: t) ++ serVal v ++ ['\n'])) = _
      rw [List.append_assoc,
        show serVal v ++ ['\n'] = serVal v ++ '\n' :: [] from rfl,
        load_cards_some, hsplit, hval, List.filterMap_append, hproc,
        load_cards_some]
      conv_rhs => rw [hself]
      rw [List.filterMap_append]
      have hnilmap : List.filterMap processLine (splitLines []) = [] := by
        show List.filterMap processLine [[]] = []
        simp [processLine_nil]
      rw [hnilmap, List.append_nil]

/-- Loading the content made of newline-terminated lines processes exactly
those lines in order. -/
theorem loadCards_joinNL : ∀ ls : List (List Char),
    (∀ l ∈ ls, noBreakLine l = true) →
    load_cards (some (joinNL ls)) = ls.filterMap processLine := by
  have key : ∀ ls : List (List Char), (∀ l ∈ ls, noBreakLine l = true) →
      (splitLines (joinNL ls)).filterMap processLine = ls.filterMap processLine := by
    intro ls
    induction ls with
    | nil =>
      intro _
      show List.filterMap processLine [[]] = []
      simp [processLine_nil]
    | cons l ls ih =>
      intro hall
      rw [joinNL, splitLines_join _ (hall l (by simp)), List.filterMap_cons,
        List.filterMap_cons, ih (fun x hx => hall x (by simp [hx]))]
  intro ls hall
  rw [load_cards_some, key ls hall]

theorem length_filterMap_allSome : ∀ ls : List (List Char),
    (∀ l ∈ ls, (processLine l).isSome = true) →
    (ls.filterMap processLine).length = ls.length := by
  intro ls
  induction ls with
  | nil => intro _; rfl
  | cons l ls ih =>
    intro hall
    have hsome := hall l (by simp)
    rcases hl : processLine l with _ | v
    · rw [hl] at hsome; simp at hsome
    · rw [List.filterMap_cons, hl]
      simp only [List.length_cons]
      rw [ih (fun x hx => hall x (by simp [hx]))]


/-! ## Collision resolution never overwrites -/

theorem splitLastDot_spec : ∀ cs b e, splitLastDot cs = some (b, e) →
    cs = b ++ '.' :: e := by
  intro cs
  induction cs with
  | nil => intro b e h; simp [splitLastDot] at h
  | cons c cs ih =>
    intro b e h
    rw [splitLastDot] at h
    rcases hs : splitLastDot cs with _ | ⟨b2, e2⟩
    · rw [hs] at h
      by_cases hc : c = '.'
      · rw [if_pos hc] at h
        injection h with h
        injection h with hb he
        subst hb; subst he; subst hc
        rfl
      · rw [if_neg hc] at h
        exact absurd h (by simp)
    · rw [hs] at h
      injection h with h
      injection h with hb he
      subst hb; subst he
      rw [ih b2 e2 hs]
      rfl

theorem natDigits_length_pos (i : Nat) : 1 ≤ (natDigits i).length := by
  rcases h : natDigits i with _ | ⟨d, ds⟩
  · exact absurd h (natDigits_ne_nil i)
  · simp

theorem mkCand_length (b e : List Char) (i : Nat) :
    (mkCand b e i).length =
      if e = [] then b.length + 1 + (natDigits i).length
      else b.length + 1 + (natDigits i).length + 1 + e.length := by
  rw [mkCand]
  split
  · simp only [List.length_append, List.length_cons]
    omega
  · simp only [List.length_append, List.length_cons]
    omega

theorem mkCand_inj {b e : List Char} {i j : Nat}
    (h : mkCand b e i = mkCand b e j) : i = j := by
  rw [mkCand, mkCand] at h
  split at h
  · have h2 := List.append_cancel_left h
    injection h2 with _ h3
    exact natDigits_injective h3
  · have h2 := List.append_cancel_right h
    have h3 := List.append_cancel_left h2
    injection h3 with _ h4
    exact natDigits_injective h4

theorem ufLoop_not_mem (names : List (List Char)) (b e : List Char) :
    ∀ (fuel i : Nat) (cand : List Char),
    (∃ k, k < fuel ∧ (if k = 0 then cand else mkCand b e (i + (k - 1))) ∉ names) →
    ufLoop names b e fuel i cand ∉ names := by
  intro fuel
  induction fuel with
  | zero =>
    intro i cand h
    obtain ⟨k, hk, _⟩ := h
    omega
  | succ fuel ih =>
    intro i cand h
    rw [ufLoop]
    by_cases hc : cand ∈ names
    · rw [if_pos hc]
      obtain ⟨k, hk, hnot⟩ := h
      cases k with
      | zero =>
        simp only [if_pos rfl] at hnot
        exact absurd hc hnot
      | succ k2 =>
        refine ih (i + 1) (mkCand b e i) ⟨k2, by omega, ?_⟩
        cases k2 with
        | zero =>
          simp only [if_pos rfl]
          simpa using hnot
        | succ k3 =>
          rw [if_neg (by omega)]
          rw [if_neg (by omega)] at hnot
          have harith : i + 1 + (k3 + 1 - 1) = i + (k3 + 1 + 1 - 1) := by omega
          rw [harith]
          exact hnot
    · rwa [if_neg hc]

theorem exists_fresh_cand (names : List (List Char)) (b e : List Char)
    (filename : List Char) (hne : ∀ i, 2 ≤ i → filename ≠ mkCand b e i) :
    ∃ k, k < names.length + 1 ∧
      (if k = 0 then filename else mkCand b e (2 + (k - 1))) ∉ names := by
  by_contra hall
  push_neg at hall
  have hmem : ∀ k < names.length + 1,
      (if k = 0 then filename else mkCand b e (2 + (k - 1))) ∈ names := hall
  have hinj : Set.InjOn (fun k => if k = 0 then filename else mkCand b e (2 + (k - 1)))
      (Finset.range (names.length + 1)) := by
    intro x _ y _ hxy
    simp only at hxy
    rcases Nat.eq_zero_or_pos x with hx | hx
    · rcases Nat.eq_zero_or_pos y with hy | hy
      · omega
      · subst hx
        rw [if_pos rfl, if_neg (by omega)] at hxy
        exact absurd hxy (hne _ (by omega))
    · rcases Nat.eq_zero_or_pos y with hy | hy
      · subst hy
        rw [if_neg (by omega), if_pos rfl] at hxy
        exact absurd hxy.symm (hne _ (by omega))
      · rw [if_neg (by omega), if_neg (by omega)] at hxy
        have := mkCand_inj hxy
        omega
  have hcard : ((Finset.range (names.length + 1)).image
      fun k => if k = 0 then filename else mkCand b e (2 + (k - 1))).card
      = names.length + 1 := by
    rw [Finset.card_image_of_injOn hinj, Finset.card_range]
  have hsub : ((Finset.range (names.length + 1)).image
      fun k => if k = 0 then filename else mkCand b e (2 + (k - 1)))
      ⊆ names.toFinset := by
    intro x hx
    rw [Finset.mem_image] at hx
    obtain ⟨k, hk, rfl⟩ := hx
    rw [Finset.mem_range] at hk
    rw [List.mem_toFinset]
    exact hmem k hk
  have := Finset.card_le_card hsub
  have := List.toFinset_card_le names
  omega

/-- `unique_filename` never returns a name already present in the
directory: no existing file is ever overwritten. -/
theorem unique_filename_not_mem (names : List (List Char)) (filename : List Char) :
    unique_filename names filename ∉ names := by
  rw [unique_filename]
  rcases hsplit : splitLastDot filename with _ | ⟨b, e⟩
  · simp only [hsplit]
    refine ufLoop_not_mem names filename [] (names.length + 1) 2 filename
      (exists_fresh_cand names filename [] filename ?_)
    intro i _ h
    have hlen := congrArg List.length h
    rw [mkCand_length] at hlen
    rw [if_pos rfl] at hlen
    have hd := natDigits_length_pos i
    omega
  · simp only [hsplit]
    have hfn := splitLastDot_spec filename b e hsplit
    refine ufLoop_not_mem names b e (names.length + 1) 2 filename
      (exists_fresh_cand names b e filename ?_)
    intro i _ h
    have hlen := congrArg List.length h
    rw [hfn, mkCand_length] at hlen
    have hd := natDigits_length_pos i
    by_cases he : e = []
    · rw [if_pos he] at hlen
      subst he
      simp only [List.length_append, List.length_cons, List.length_nil] at hlen
      omega
    · rw [if_neg he] at hlen
      simp only [List.length_append, List.length_cons] at hlen
      omega

/-! ## Ingestion loop lemmas -/

theorem ingestLoop_skip_none (card_id : List Char) (content : List Nat)
    (fs : List RawFile) (folder : List (List Char × List Nat))
    (saved : List StoredFile) :
    ingestLoop card_id (⟨none, content⟩ :: fs) folder saved
      = ingestLoop card_id fs folder saved := by
  rw [ingestLoop.eq_def]

theorem ingestLoop_skip_empty_name (card_id : List Char) (content : List Nat)
    (fs : List RawFile) (folder : List (List Char × List Nat))
    (saved : List StoredFile) :
    ingestLoop card_id (⟨some [], content⟩ :: fs) folder saved
      = ingestLoop card_id fs folder saved := by
  rw [ingestLoop.eq_def]
  simp

theorem ingestLoop_skip_unsanitizable (card_id : List Char) (orig : List Char)
    (content : List Nat) (fs : List RawFile) (folder : List (List Char × List Nat))
    (saved : List StoredFile) (h : secure_filename orig = []) :
    ingestLoop card_id (⟨some orig, content⟩ :: fs) folder saved
      = ingestLoop card_id fs folder saved := by
  rw [ingestLoop.eq_def]
  by_cases horig : orig = []
  · simp [horig]
  · simp [horig, h]

theorem ingestLoop_skip_disallowed (card_id : List Char) (orig : List Char)
    (content : List Nat) (fs : List RawFile) (folder : List (List Char × List Nat))
    (saved : List StoredFile) (hsan : secure_filename orig ≠ [])
    (hext : allowed_file (secure_filename orig) = false) :
    ingestLoop card_id (⟨some orig, content⟩ :: fs) folder saved
      = ingestLoop card_id fs folder saved := by
  rw [ingestLoop.eq_def]
  by_cases horig : orig = []
  · simp [horig]
  · simp [horig, hsan, hext]

theorem ingestLoop_folder_extends (card_id : List Char) :
    ∀ (fs : List RawFile) (folder : List (List Char × List Nat))
      (saved : List StoredFile),
    ∃ added, (ingestLoop card_id fs folder saved).1 = folder ++ added := by
  intro fs
  induction fs with
  | nil => intro folder saved; exact ⟨[], by simp [ingestLoop]⟩
  | cons f fs ih =>
    intro folder saved
    rw [ingestLoop.eq_def]
    rcases f with ⟨fn, content⟩
    rcases fn with _ | orig
    · exact ih folder saved
    · by_cases horig : orig = []
      · simpa [horig] using ih folder saved
      · by_cases hsan : secure_filename orig = []
        · simpa [horig, hsan] using ih folder saved
        · by_cases hext : allowed_file (secure_filename orig) = false
          · simpa [horig, hsan, hext] using ih folder saved
          · simp only [horig, hsan, hext, if_neg, if_false]
            obtain ⟨added, hadd⟩ := ih
              (folder ++ [(unique_filename (folder.map Prod.fst)
                (secure_filename orig), content)])
              (saved ++ [⟨unique_filename (folder.map Prod.fst) (secure_filename orig),
                urlFor card_id (unique_filename (folder.map Prod.fst)
                  (secure_filename orig)),
                (afterLastDot (unique_filename (folder.map Prod.fst)
                  (secure_filename orig))).map pyLower⟩])
            refine ⟨(unique_filename (folder.map Prod.fst) (secure_filename orig),
              content) :: added, ?_⟩
            simp_all


/-! ## Remaining helper lemmas for the claims -/

theorem serVal_ne_nil (v : Json) : serVal v ≠ [] := by
  obtain ⟨c, t, hct, _⟩ := serVal_head v
  rw [hct]
  simp

theorem appendAll_load : ∀ (vs : List Json) (st : Option (List Char)),
    goodLog st = true → load_cards (appendAll vs st) = load_cards st ++ vs := by
  intro vs
  induction vs with
  | nil => intro st _; simp [appendAll]
  | cons v vs ih =>
    intro st h
    show load_cards (appendAll vs (append_card st v)) = _
    rw [ih (append_card st v) (goodLog_append st v), loadCards_append v h,
      List.append_assoc]
    rfl

theorem goodLog_appendAll : ∀ (vs : List Json) (st : Option (List Char)),
    goodLog st = true → goodLog (appendAll vs st) = true := by
  intro vs
  induction vs with
  | nil => intro st h; exact h
  | cons v vs ih =>
    intro st h
    exact ih (append_card st v) (goodLog_append st v)

theorem nonEmptyLines_append (st : Option (List Char)) (v : Json)
    (h : goodLog st = true) :
    nonEmptyLines (append_card st v) = nonEmptyLines st ++ [serVal v] := by
  have hval : splitLines (serVal v ++ '\n' :: []) = [serVal v, []] := by
    rw [splitLines_join [] (noBreak_serVal v)]
    rfl
  have hfilter : List.filter (fun l => decide (l ≠ [])) [serVal v, []] = [serVal v] := by
    simp [List.filter, serVal_ne_nil v]
  rcases st with _ | cs
  · rw [append_card]
    show (splitLines ([] ++ serVal v ++ ['\n'])).filter _ = ((splitLines []).filter _) ++ _
    rw [List.nil_append, show serVal v ++ ['\n'] = serVal v ++ '\n' :: [] from rfl, hval]
    simpa using hfilter
  · rcases cs with _ | ⟨c, t⟩
    · rw [append_card]
      show (splitLines ([] ++ serVal v ++ ['\n'])).filter _ = ((splitLines []).filter _) ++ _
      rw [List.nil_append, show serVal v ++ ['\n'] = serVal v ++ '\n' :: [] from rfl, hval]
      simpa using hfilter
    · have hnl : (c :: t).getLast? = some '\n' := by
        rw [goodLog.eq_def] at h
        simpa using h
      obtain ⟨hsplit, _⟩ := splitLines_append_endsNL (serVal v ++ '\n' :: []) (c :: t) hnl
      obtain ⟨hself, _⟩ := splitLines_append_endsNL [] (c :: t) hnl
      rw [List.append_nil] at hself
      rw [append_card]
      show (splitLines ((c :: t) ++ serVal v ++ ['\n'])).filter _
        = ((splitLines (c :: t)).filter _) ++ _
      rw [List.append_assoc, show serVal v ++ ['\n'] = serVal v ++ '\n' :: [] from rfl,
        hsplit, hval, List.filter_append, hfilter]
      conv_rhs => rw [hself]
      rw [List.filter_append]
      show _ = (splitLines (c :: t)).dropLast.filter _ ++ List.filter _ [[]] ++ _
      simp [List.filter]

theorem processLine_eq_none_of_not_isSome {l : List Char}
    (h : (processLine l).isSome = false) : processLine l = none := by
  rcases hp : processLine l with _ | v
  · rfl
  · rw [hp] at h
    simp at h

/-! ## The claims -/

/-- C1: for every card record, appending it to a well-formed log file and
then loading the log returns a sequence whose last element deep-equals the
appended card: the JSON-line serialization followed by line-by-line parsing
round-trips the record. -/
theorem c1_append_then_load_roundtrip (c : Card) (st : Option (List Char))
    (h : goodLog st = true) :
    (load_cards (append_card st (Card.toJson c))).getLast?
      = some (Card.toJson c) := by
  rw [loadCards_append (Card.toJson c) h]
  exact List.getLast?_concat _

theorem c1_witness :
    (load_cards (append_card none (Card.toJson
      ⟨("ab12ab12ab").data, ("2024-01-01T00:00:00Z").data, ('t' :: []), [],
        [⟨("a.png").data, ("/uploads/ab12ab12ab/a.png").data, ("png").data⟩]⟩))).getLast?
      = some (Card.toJson
      ⟨("ab12ab12ab").data, ("2024-01-01T00:00:00Z").data, ('t' :: []), [],
        [⟨("a.png").data, ("/uploads/ab12ab12ab/a.png").data, ("png").data⟩]⟩) :=
  c1_append_then_load_roundtrip _ none (by decide)

/-- C2: `load_cards` is lenient.  A missing log file yields the empty
sequence rather than an error, and a log made of K well-formed lines plus
one malformed line yields exactly the K well-formed records — the malformed
line is skipped, the read never aborts. -/
theorem c2_load_lenient :
    load_cards none = [] ∧
    ∀ (pre post : List (List Char)) (bad : List Char),
      (∀ l ∈ pre ++ post, (processLine l).isSome = true) →
      (processLine bad).isSome = false →
      (∀ l ∈ pre ++ bad :: post, noBreakLine l = true) →
      load_cards (some (joinNL (pre ++ bad :: post)))
          = (pre ++ post).filterMap processLine ∧
        (load_cards (some (joinNL (pre ++ bad :: post)))).length
          = pre.length + post.length := by
  refine ⟨rfl, ?_⟩
  intro pre post bad hgood hbad hnb
  have hbad2 : processLine bad = none := processLine_eq_none_of_not_isSome hbad
  have hload : load_cards (some (joinNL (pre ++ bad :: post)))
      = (pre ++ post).filterMap processLine := by
    rw [loadCards_joinNL _ hnb, List.filterMap_append, List.filterMap_cons, hbad2,
      List.filterMap_append]
  refine ⟨hload, ?_⟩
  rw [hload, length_filterMap_allSome _ hgood, List.length_append]

theorem c2_witness :
    load_cards (some (joinNL [("1").data, ("oops").data, ("2").data]))
        = ([("1").data] ++ [("2").data]).filterMap processLine ∧
      (load_cards (some (joinNL [("1").data, ("oops").data, ("2").data]))).length
        = 1 + 1 :=
  c2_load_lenient.2 [("1").data] [("2").data] (("oops").data)
    (by decide) (by decide) (by decide)

/-- C3: `load_cards` and `append_card` build their `FileLock` on the same
path, derived from the log file path as `path + ".lock"`, so all callers
contend on one lock; consequently any concurrent execution of N appends is
observationally a serial order of whole-record appends (each append is one
critical section writing one full line), and loading afterwards yields
exactly the N appended records, uncorrupted and in order. -/
theorem c3_same_lock_n_appends :
    (∀ path : List Char, load_lock_path path = append_lock_path path ∧
      append_lock_path path = path ++ (".lock").data) ∧
    ∀ cards : List Card,
      load_cards (appendAll (cards.map Card.toJson) none) = cards.map Card.toJson ∧
      (load_cards (appendAll (cards.map Card.toJson) none)).length = cards.length := by
  refine ⟨fun path => ⟨rfl, rfl⟩, ?_⟩
  intro cards
  have h := appendAll_load (cards.map Card.toJson) none rfl
  rw [show load_cards none = [] from rfl, List.nil_append] at h
  exact ⟨h, by rw [h, List.length_map]⟩

/-- C4: `sanitize_id` accepts a string (returning the case-folded id) if
and only if the case-folded string consists entirely of lowercase
hexadecimal characters and its length is between 8 and 32; every other
string is rejected with the empty result, never partially accepted. -/
theorem c4_sanitize_id_iff (raw : List Char) :
    (sanitize_id raw ≠ [] ↔
      ((raw.map pyLower).all (fun c => decide (c ∈ HEX_CHARS)) = true ∧
        8 ≤ raw.length ∧ raw.length ≤ 32)) ∧
    (sanitize_id raw = [] ∨ sanitize_id raw = raw.map pyLower) := by
  by_cases hr : raw = []
  · subst hr
    refine ⟨⟨fun h => absurd rfl h, fun ⟨_, h8, _⟩ => by simp at h8⟩, Or.inl rfl⟩
  · rw [sanitize_id, if_neg hr]
    by_cases hcond : (raw.map pyLower).all (fun c => decide (c ∈ HEX_CHARS)) = true ∧
        8 ≤ (raw.map pyLower).length ∧ (raw.map pyLower).length ≤ 32
    · rw [if_pos hcond]
      obtain ⟨hall, h8, h32⟩ := hcond
      rw [List.length_map] at h8 h32
      constructor
      · constructor
        · intro _
          exact ⟨hall, h8, h32⟩
        · intro _
          intro hmap
          have hlen := congrArg List.length hmap
          rw [List.length_map] at hlen
          simp only [List.length_nil] at hlen
          omega
      · exact Or.inr rfl
    · rw [if_neg hcond]
      rw [List.length_map] at hcond
      refine ⟨⟨fun h => absurd rfl h, fun h => absurd h hcond⟩, Or.inl rfl⟩

theorem c4_witness : sanitize_id (("ABCDEF12").data) ≠ [] :=
  (c4_sanitize_id_iff (("ABCDEF12").data)).1.mpr (by decide)

/-- C5: collision resolution is deterministic and never overwrites: the
name chosen by `unique_filename` is never one already present in the
directory, ingestion only ever extends the directory listing, and two
files with the same sanitized name get the suffix pattern `a.png`,
`a_2.png`, continuing with `_3` and so on. -/
theorem c5_collision_resolution :
    (∀ (names : List (List Char)) (filename : List Char),
      unique_filename names filename ∉ names) ∧
    (∀ (card_id : List Char) (fs : List RawFile)
      (folder : List (List Char × List Nat)) (saved : List StoredFile),
      ∃ added, (ingestLoop card_id fs folder saved).1 = folder ++ added) ∧
    ingest (("cafebabe12").data)
        [⟨some (("a.png").data), [1]⟩, ⟨some (("a.png").data), [2]⟩] []
      = ([(("a.png").data, [1]), (("a_2.png").data, [2])],
         [⟨("a.png").data, ("/uploads/cafebabe12/a.png").data, ("png").data⟩,
          ⟨("a_2.png").data, ("/uploads/cafebabe12/a_2.png").data, ("png").data⟩]) ∧
    unique_filename [("a.png").data, ("a_2.png").data] (("a.png").data)
      = ("a_3.png").data :=
  ⟨unique_filename_not_mem,
   fun card_id fs folder saved => ingestLoop_folder_extends card_id fs folder saved,
   rfl, rfl⟩

theorem c5_witness :
    unique_filename [("a.png").data] (("a.png").data) ∉ [("a.png").data] :=
  c5_collision_resolution.1 [("a.png").data] (("a.png").data)

/-- C6: the extension check is case-insensitive on the substring after the
last dot: a name with no dot is rejected, a disallowed extension makes the
entry be skipped while the batch continues, and an accepted `photo.JPG` is
stored with its `ext` field recorded as the lowercase `jpg`. -/
theorem c6_extension_allowlist :
    (∀ name : List Char, '.' ∉ name → allowed_file name = false) ∧
    (∀ (card_id orig : List Char) (content : List Nat) (fs : List RawFile)
      (folder : List (List Char × List Nat)) (saved : List StoredFile),
      secure_filename orig ≠ [] → allowed_file (secure_filename orig) = false →
      ingestLoop card_id (⟨some orig, content⟩ :: fs) folder saved
        = ingestLoop card_id fs folder saved) ∧
    ingest (("cafebabe12").data)
        [⟨some (("evil.exe").data), [9]⟩, ⟨some (("photo.JPG").data), [7]⟩] []
      = ([(("photo.JPG").data, [7])],
         [⟨("photo.JPG").data, ("/uploads/cafebabe12/photo.JPG").data,
           ("jpg").data⟩]) := by
  refine ⟨?_, ?_, rfl⟩
  · intro name h
    rw [allowed_file, if_neg h]
  · intro card_id orig content fs folder saved hsan hext
    exact ingestLoop_skip_disallowed card_id orig content fs folder saved hsan hext

theorem c6_witness :
    allowed_file (("evil").data) = false ∧
    ingestLoop (("cafebabe12").data) [⟨some (("evil.exe").data), [9]⟩] [] []
      = ingestLoop (("cafebabe12").data) [] [] [] :=
  ⟨c6_extension_allowlist.1 (("evil").data) (by decide),
   c6_extension_allowlist.2.1 (("cafebabe12").data) (("evil.exe").data) [9] [] [] []
     (by decide) (by decide)⟩

/-- C7 (counterexample): an upload entry with a usable filename but empty
content is not dropped — the ingestion loop stores it and produces a
StoredFile for it, contrary to the claim that empty-content entries are
silently skipped.  (Werkzeug's `FileStorage.__bool__` tests only the
filename, so line 114 never looks at the content.) -/
theorem c7_counterexample :
    (ingest (("cafebabe12").data)
        [⟨some (("a.png").data), ([] : List Nat)⟩] []).2
      = [⟨("a.png").data, ("/uploads/cafebabe12/a.png").data, ("png").data⟩] ∧
    (ingest (("cafebabe12").data)
        [⟨some (("a.png").data), ([] : List Nat)⟩] []).2 ≠ [] :=
  ⟨rfl, by decide⟩

/-- C7 (amended): an entry with a missing or empty client filename is
silently skipped, as is an entry whose sanitized filename is empty, and
processing continues with the remaining entries; an entry with empty
content but a usable filename is not skipped — it is stored as an empty
file and produces a StoredFile. -/
theorem c7_skip_rules :
    (∀ (card_id : List Char) (content : List Nat) (fs : List RawFile)
      (folder : List (List Char × List Nat)) (saved : List StoredFile),
      ingestLoop card_id (⟨none, content⟩ :: fs) folder saved
        = ingestLoop card_id fs folder saved) ∧
    (∀ (card_id : List Char) (content : List Nat) (fs : List RawFile)
      (folder : List (List Char × List Nat)) (saved : List StoredFile),
      ingestLoop card_id (⟨some [], content⟩ :: fs) folder saved
        = ingestLoop card_id fs folder saved) ∧
    (∀ (card_id orig : List Char) (content : List Nat) (fs : List RawFile)
      (folder : List (List Char × List Nat)) (saved : List StoredFile),
      secure_filename orig = [] →
      ingestLoop card_id (⟨some orig, content⟩ :: fs) folder saved
        = ingestLoop card_id fs folder saved) ∧
    (ingest (("cafebabe12").data)
        [⟨some (("b.png").data), ([] : List Nat)⟩] []).2.length = 1 :=
  ⟨ingestLoop_skip_none, ingestLoop_skip_empty_name,
   fun card_id orig content fs folder saved h =>
     ingestLoop_skip_unsanitizable card_id orig content fs folder saved h,
   rfl⟩

theorem c7_witness :
    ingestLoop (("cafebabe12").data) [⟨some (("..").data), [1]⟩] [] []
      = ingestLoop (("cafebabe12").data) [] [] [] :=
  c7_skip_rules.2.2.1 (("cafebabe12").data) (("..").data) [1] [] [] [] (by decide)

/-- C8: the log is append-only and ordered: appending a card only extends
the file content with the record's single line and the terminating
newline, the non-empty lines of the log are exactly the old ones followed
by the new record's line, and loading returns the records in file order
with the new record last. -/
theorem c8_append_only_ordered (st : Option (List Char)) (c : Card)
    (h : goodLog st = true) :
    append_card st (Card.toJson c)
        = some (st.getD [] ++ serVal (Card.toJson c) ++ ['\n']) ∧
    nonEmptyLines (append_card st (Card.toJson c))
        = nonEmptyLines st ++ [serVal (Card.toJson c)] ∧
    load_cards (append_card st (Card.toJson c))
        = load_cards st ++ [Card.toJson c] :=
  ⟨rfl, nonEmptyLines_append st (Card.toJson c) h,
   loadCards_append (Card.toJson c) h⟩

theorem c8_witness :
    load_cards (append_card (some (('1' :: '\n' :: []) : List Char))
        (Card.toJson ⟨("ab12ab12ab").data, [], ('t' :: []), [], []⟩))
      = load_cards (some (('1' :: '\n' :: []) : List Char))
        ++ [Card.toJson ⟨("ab12ab12ab").data, [], ('t' :: []), [], []⟩] :=
  (c8_append_only_ordered (some ('1' :: '\n' :: []))
    ⟨("ab12ab12ab").data, [], ('t' :: []), [], []⟩ (by decide)).2.2

/-- C9: a publish request whose title is empty after trimming is rejected
before any disk effect: the store (log file and uploads tree) is returned
unchanged and no card is produced. -/
theorem c9_empty_title_rejected (title0 desc0 : List Char) (files : List RawFile)
    (card_id created_at : List Char) (st : Store) (h : pstrip title0 = []) :
    admin_new_post title0 desc0 files card_id created_at st = (st, none) := by
  rw [admin_new_post]
  simp [h]

theorem c9_witness :
    admin_new_post ((" ").data) (("d").data) [⟨some (("a.png").data), [1]⟩]
      (("cafebabe12").data) (("2024-01-01T00:00:00Z").data) ⟨none, []⟩
      = (⟨none, []⟩, none) :=
  c9_empty_title_rejected _ _ _ _ _ _ (by decide)

/-- C10: `load_cards` applies no schema validation: it returns, in file
order, the parse of every non-blank line whose stripped text parses as any
JSON value — including non-object values such as a bare number, a string
or a list — and skips a line only when it is blank or parsing fails. -/
theorem c10_no_schema_validation :
    (∀ cs : List Char,
      load_cards (some cs) = (splitLines cs).filterMap processLine) ∧
    load_cards (some (("42\n\"hi\"\n[1, 2]\n\nnot json\n").data))
      = [Json.num 42, Json.str ('h' :: 'i' :: []),
         Json.arr (.cons (.num 1) (.cons (.num 2) .nil))] :=
  ⟨load_cards_some, rfl⟩

example : json_loads (("[1, 2]").data) =
    some (.arr (.cons (.num 1) (.cons (.num 2) .nil))) := rfl

example : json_loads (("  true ").data) = some (.bool true) := rfl

example : json_loads (("not json").data) = none := rfl

example : json_loads (("01").data) = none := rfl

example : serVal (.str ('a' :: '\n' :: 'b' :: [])) = ('"' :: 'a' :: '\\' :: 'n' :: 'b' :: '"' :: []) := rfl

example : json_loads (serVal (.str ('a' :: '\n' :: Char.ofNat 1 :: []))) =
    some (.str ('a' :: '\n' :: Char.ofNat 1 :: [])) := rfl

example : secure_filename (("../../etc/passwd").data) = ("etc_passwd").data := rfl

example : secure_filename (("a.png").data) = ("a.png").data := rfl

example : secure_filename (("..").data) = [] := rfl

example : unique_filename [("a.png").data] (("a.png").data) = ("a_2.png").data := rfl

example : unique_filename [("a.png").data, ("a_2.png").data] (("a.png").data) = ("a_3.png").data := rfl

example : allowed_file (("photo.JPG").data) = true := rfl

example : allowed_file (("evil.exe").data) = false := rfl

example : allowed_file (("noext").data) = false := rfl

example : sanitize_id (("ABCDEF12").data) = ("abcdef12").data := rfl

example : sanitize_id (("../../etc").data) = [] := rfl

example :
    load_cards (append_card none (Card.toJson ⟨("ab12").data, [], ('t' :: []), [], []⟩)) =
      [Card.toJson ⟨("ab12").data, [], ('t' :: []), [], []⟩] := rfl

example :
    (ingest (("cafebabe12").data)
      [⟨some (("a.png").data), [1]⟩, ⟨some (("a.png").data), [2]⟩] []).2 =
    [⟨("a.png").data, ("/uploads/cafebabe12/a.png").data, ("png").data⟩,
     ⟨("a_2.png").data, ("/uploads/cafebabe12/a_2.png").data, ("png").data⟩] := rfl
